import Mathlib

/-! ai-cli: the terminal chat screen (`pkg/ui/model.go`)

A shallow embedding of `pkg/ui/model.go` and theorems about it.

* Go strings are byte sequences: `len` counts bytes and `s[i:j]` slices bytes, so a
  string is a `List UInt8` here and string literals are their UTF-8 encodings.
* `split` contains a `for` loop that need not terminate and a slice expression that
  can panic, so it returns a `Result` and takes a bound on the number of loop
  iterations (`fuel`). The bound is only consumed by an iteration that the source
  would really start: a run whose loop condition is false returns without fuel.
* The bubbles widgets (`textarea`, `viewport`), the footer component, lipgloss and the
  `ai` package are not part of `model.go`. The state of the two bubbles widgets that
  `model.go` reads or writes is a record; the widgets' own `Update` functions, the
  footer and the lipgloss styling are parameters (`Widgets`).
* `Model.context` is a pointer in the source. The event loop is single threaded and
  the model is the only writer, so the pointed-to context is a field of the model
  and the messages sent on the channel `Ai.Input` are recorded in a list.
-/

namespace AiCli

/-! ## Strings -/

/-- A Go `string`: an immutable sequence of bytes. -/
abbrev GoString := List UInt8

/-- The bytes of a Go string literal (Go source text is UTF-8). -/
def utf8 (s : String) : GoString := s.toUTF8.data.toList

/-- The builtin `len(s)` of a string: its number of bytes, as an `int`. -/
def len (s : GoString) : Int := (s.length : Int)

/-- The byte `'\n'`. -/
def newline : UInt8 := 10

/-- A mathematical integer as the Go `int` of a 64-bit platform holds it: reduced
into the range from `-2^63` to `2^63 - 1` (two's complement wrap-around). -/
def wrapInt (x : Int) : Int := (x + 2 ^ 63) % 2 ^ 64 - 2 ^ 63

/-- Go `a - b` on `int`. -/
def intSub (a b : Int) : Int := wrapInt (a - b)

/-- The slice expression `s[:hi]`; `none` is the run-time panic
"slice bounds out of range". -/
def sliceTo (s : GoString) (hi : Int) : Option GoString :=
  if 0 ≤ hi ∧ hi ≤ len s then some (s.take hi.toNat) else none

/-- The slice expression `s[lo:]`; `none` is the run-time panic
"slice bounds out of range". -/
def sliceFrom (s : GoString) (lo : Int) : Option GoString :=
  if 0 ≤ lo ∧ lo ≤ len s then some (s.drop lo.toNat) else none

/-- Go `strings.Split(s, "\n")`: the substrings between newlines; never empty. -/
def stringsSplit : GoString → List GoString
  | [] => [[]]
  | c :: cs =>
    if c = newline then [] :: stringsSplit cs
    else
      match stringsSplit cs with
      | [] => [[c]]
      | l :: ls => (c :: l) :: ls

/-- Go `strings.Join(elems, "\n")`. -/
def stringsJoin : List GoString → GoString
  | [] => []
  | [l] => l
  | l :: ls => l ++ newline :: stringsJoin ls

/-- Go `strings.TrimLeft(s, "\n")`. -/
def trimLeft : GoString → GoString
  | [] => []
  | c :: cs => if c = newline then trimLeft cs else c :: cs

/-- Go `strings.TrimRight(s, "\n")`. -/
def trimRight (s : GoString) : GoString := (trimLeft s.reverse).reverse

/-- Go `strings.Trim(s, "\n")`: removes all leading and trailing newlines. -/
def stringsTrim (s : GoString) : GoString := trimRight (trimLeft s)

/-! ## Results of code that may panic or loop -/

/-- Outcome of running a piece of Go code with a bound on loop iterations. -/
inductive Result (α : Type) where
  /-- The code returned a value. -/
  | ok (v : α)
  /-- The code panicked (slice bounds out of range). -/
  | panic
  /-- A loop was still running when the iteration bound was used up. -/
  | outOfFuel
  deriving DecidableEq, Repr

/-- Sequencing of results. -/
def Result.bind {α β : Type} (r : Result α) (f : α → Result β) : Result β :=
  match r with
  | .ok v => f v
  | .panic => .panic
  | .outOfFuel => .outOfFuel

instance : Monad Result where
  pure := Result.ok
  bind := Result.bind

/-! ## `split` -/

/-- The loop `for len(str) > maxWidth { ... }` of `split`, started with the current
`str` and `chunks`; returns the final `str` and `chunks`. -/
def splitLoop (maxWidth : Int) : Nat → GoString → List GoString →
    Result (GoString × List GoString)
  | fuel, str, chunks =>
    if len str > maxWidth then
      match fuel with
      | 0 => .outOfFuel
      | fuel + 1 =>
        match sliceTo str maxWidth with
        | none => .panic
        | some chunk =>
          match sliceFrom str maxWidth with
          | none => .panic
          | some rest => splitLoop maxWidth fuel rest (chunks ++ [chunk])
    else .ok (str, chunks)

/-- The function `split(str string, maxWidth int) []string`. -/
def split (fuel : Nat) (str : GoString) (maxWidth : Int) : Result (List GoString) :=
  if len str ≤ maxWidth then .ok [str]
  else
    match splitLoop maxWidth fuel str [] with
    | .ok (rest, chunks) => .ok (if len rest > 0 then chunks ++ [rest] else chunks)
    | .panic => .panic
    | .outOfFuel => .outOfFuel

/-! ## The `ai` package: messages and the session -/

/-- Modelled from the spec: the type `ai.MessageType` of package `pkg/ai` (not in
`model.go`), with the four declared constants `MessageTypeSystem`, `MessageTypeUser`,
`MessageTypeAssistant`, `MessageTypeTool`; `Unknown` stands for any other value. -/
inductive MessageType where
  | System
  | User
  | Assistant
  | Tool
  | Unknown (code : Nat)
  deriving DecidableEq, Repr

/-- Modelled from the spec: `ai.Message`, `\x7btype, text\x7d`. -/
structure Message where
  Type_ : MessageType
  Text : GoString
  deriving DecidableEq, Repr

/-- Modelled from the spec: `ai.NewUserMessage(text)`, a message of type User with
the given text. -/
def NewUserMessage (text : GoString) : Message := { Type_ := .User, Text := text }

/-- Modelled from the spec: the state of the `ai.Session`,
`\x7bisRunning, messages\x7d`, read only by the screen. -/
structure Session where
  running : Bool
  messages : List Message
  deriving DecidableEq, Repr

/-- Modelled from the spec: `session.IsRunning()`. -/
def Session.IsRunning (s : Session) : Bool := s.running

/-- Modelled from the spec: `session.HasMessages()`, whether messages exist. -/
def Session.HasMessages (s : Session) : Bool := !s.messages.isEmpty

/-- Modelled from the spec: `session.Messages()`, in arrival order. -/
def Session.Messages (s : Session) : List Message := s.messages

/-- The `*ai.Ai` value: the session it exposes through `Session()` and the messages
sent so far on its channel `Input` (oldest first). -/
structure Ai where
  session : Session
  Input : List Message
  deriving DecidableEq, Repr

/-- The struct `context.ModelContext`. -/
structure ModelContext where
  Ai : Ai
  Version : GoString
  Width : Int
  Height : Int
  deriving DecidableEq, Repr

/-! ## Events and commands -/

/-- The `tea.Msg` values `Update` distinguishes. A key message is given by the value
of its `String()` method. -/
inductive Msg where
  | KeyMsg (key : GoString)
  | WindowSizeMsg (Width Height : Int)
  | Notification
  | Other (tag : Nat)
  deriving DecidableEq, Repr

/-- A `tea.Cmd`: `nil`, `tea.Quit`, a command produced by a widget, or
`tea.Batch(cmds...)`. -/
inductive Cmd where
  | nil
  | Quit
  | Widget (id : Nat)
  | Batch (cmds : List Cmd)

/-! ## The bubbles widgets -/

/-- Modelled from the spec: the state of the bubbles `viewport.Model` used by
`model.go` (the widget is not under `src/`): its size, its scroll offset and the
lines of its content. -/
structure Viewport where
  Width : Int
  Height : Int
  YOffset : Int
  lines : List GoString
  deriving DecidableEq, Repr

/-- Modelled from the spec: `viewport.New(width, height)`, an empty viewport. -/
def Viewport.New (width height : Int) : Viewport :=
  { Width := width, Height := height, YOffset := 0, lines := [] }

/-- Modelled from the spec: the largest scroll offset of the viewport, the "bottom":
the number of content lines that do not fit in the height. -/
def Viewport.maxYOffset (v : Viewport) : Int := max 0 ((v.lines.length : Int) - v.Height)

/-- Modelled from the spec: `viewport.GotoBottom()`, the scroll position is forced to
the bottom. -/
def Viewport.GotoBottom (v : Viewport) : Viewport := { v with YOffset := v.maxYOffset }

/-- The bubbles normalisation of line endings, `strings.ReplaceAll(s, "\r\n", "\n")`. -/
def replaceCRLF : GoString → GoString
  | [] => []
  | [c] => [c]
  | c :: d :: rest =>
    if c = 13 ∧ d = newline then newline :: replaceCRLF rest
    else c :: replaceCRLF (d :: rest)

/-- Modelled from the spec: `viewport.SetContent(s)`: the content becomes the lines
of `s`; a scroll offset past the last line is moved to the bottom. -/
def Viewport.SetContent (v : Viewport) (s : GoString) : Viewport :=
  let v1 := { v with lines := stringsSplit (replaceCRLF s) }
  if v1.YOffset > (v1.lines.length : Int) - 1 then v1.GotoBottom else v1

/-- Modelled from the spec: what `model.go` sets in a `textarea.Style` of the
composer (the widget is not under `src/`): whether `Base` carries the rounded border
and whether `CursorLine` is styled. -/
structure Style where
  BaseBorder : Bool
  CursorLineStyled : Bool
  deriving DecidableEq, Repr

/-- Go `Base.GetHorizontalFrameSize()` of a style: one column for each of the left
and right border, no margin and no padding. -/
def Style.horizontalFrame (st : Style) : Int := if st.BaseBorder then 2 else 0

/-- The display width of a prompt, `uniseg.StringWidth`, for prompts of narrow
characters: the number of UTF-8 code points (bytes that are not continuation
bytes). -/
def stringWidth (s : GoString) : Int :=
  ((s.filter (fun b => b < 128 || b ≥ 192)).length : Int)

/-- Modelled from the spec: the state of the bubbles `textarea.Model` used by
`model.go` (the widget is not under `src/`): the Composer Value, the width
`Width()` returns, the height, the focus flag, the exported settings and the two
styles. The widget draws with `FocusedStyle` while focused and with `BlurredStyle`
otherwise. -/
structure Composer where
  value : GoString
  width : Int
  height : Int
  focus : Bool
  ShowLineNumbers : Bool
  Placeholder : GoString
  Prompt : GoString
  MaxWidth : Int
  FocusedStyle : Style
  BlurredStyle : Style
  deriving DecidableEq, Repr

/-- The style the composer currently draws with. -/
def Composer.style (c : Composer) : Style := if c.focus then c.FocusedStyle else c.BlurredStyle

/-- Modelled from the spec: `composer.Value()`. -/
def Composer.Value (c : Composer) : GoString := c.value

/-- Modelled from the spec: `composer.Reset()`, the Composer Value is cleared. -/
def Composer.Reset (c : Composer) : Composer := { c with value := [] }

/-- Modelled from the spec: the state change of `composer.Focus()`, the focus flag is
set (and with it the focused style is used). -/
def Composer.Focus (c : Composer) : Composer := { c with focus := true }

/-- Modelled from the spec: `composer.SetWidth(w)`, as the widget computes it: `w`
is the outer width; it is raised to one more than the reserved columns (frame of
the current style, prompt, line numbers), capped by `MaxWidth`, and the width kept
is what remains inside the reserved columns. All quantities stay far inside the
range of `int`. -/
def Composer.SetWidth (c : Composer) (w : Int) : Composer :=
  let promptWidth := stringWidth c.Prompt
  let reservedOuter := c.style.horizontalFrame
  let reservedInner := if c.ShowLineNumbers then promptWidth + 4 else promptWidth
  let minWidth := reservedInner + reservedOuter + 1
  let inputWidth := max w minWidth
  let inputWidth := if c.MaxWidth > 0 then min inputWidth c.MaxWidth else inputWidth
  { c with width := inputWidth - reservedOuter - reservedInner }

/-- Modelled from the spec: `composer.SetHeight(h)`. -/
def Composer.SetHeight (c : Composer) (h : Int) : Composer := { c with height := h }

/-- Modelled from the spec: `textarea.New()`: an empty, unfocused text area with the
widget's defaults (line numbers shown, a bar as prompt, maximal width 500, no border
on either style), sized by `SetHeight(6)` and `SetWidth(40)`. -/
def Composer.New : Composer :=
  let c : Composer :=
    { value := [], width := 0, height := 0, focus := false, ShowLineNumbers := true,
      Placeholder := [], Prompt := utf8 "┃ ", MaxWidth := 500,
      FocusedStyle := { BaseBorder := false, CursorLineStyled := true },
      BlurredStyle := { BaseBorder := false, CursorLineStyled := true } }
  (c.SetHeight 6).SetWidth 40

/-- Go `lipgloss.Height(s)`: the number of lines of `s`,
`strings.Count(s, "\n") + 1`. -/
def lipglossHeight (s : GoString) : Int := (s.count newline : Int) + 1

/-- The parts of the program outside `model.go` that `model.go` calls and whose
behaviour is left open: the widgets' own event handling, the footer component
(with state `F`), lipgloss styling and the version string. -/
structure Widgets (F : Type) where
  /-- The widget method `viewport.Update(msg)`. -/
  viewportUpdate : Msg → Viewport → Viewport × Cmd
  /-- The widget method `composer.Update(msg)`. -/
  composerUpdate : Msg → Composer → Composer × Cmd
  /-- The command returned by `composer.Focus()`. -/
  composerFocusCmd : Composer → Cmd
  /-- The command `textarea.Blink`. -/
  blinkCmd : Cmd
  /-- The method `footer.Init()`. -/
  footerInit : F → Cmd
  /-- The constructor `footer.NewModel(ctx)`. -/
  footerNew : ModelContext → F
  /-- The method `footer.Update(msg)`; the footer holds the pointer to the context. -/
  footerUpdate : ModelContext → Msg → F → F × Cmd
  /-- The method `footer.View()`. -/
  footerView : ModelContext → F → GoString
  /-- The styling `lipgloss.NewStyle().Bold(true).Render(s)`. -/
  renderBold : GoString → GoString
  /-- The variable `version.Version`. -/
  Version : GoString

/-! ## `model.go` -/

/-- The constant `composerHeight`. -/
def composerHeight : Int := 2

/-- The struct `Model`; `context` is the struct the pointer refers to. -/
structure Model (F : Type) where
  context : ModelContext
  viewport : Viewport
  composer : Composer
  footer : F

/-- The function `NewModel(ai *ai.Ai) Model`. -/
def NewModel {F : Type} (W : Widgets F) (ai : Ai) : Model F :=
  let ctx : ModelContext := { Ai := ai, Version := W.Version, Width := 0, Height := 0 }
  let composer := Composer.New.SetHeight composerHeight
  { context := ctx
    viewport := Viewport.New 0 0
    composer :=
      { composer with
        ShowLineNumbers := false
        Placeholder := utf8 "How can I help you today?"
        Prompt := utf8 ""
        -- Removes highlighted line, then the rounded border on the focused style
        FocusedStyle := { BaseBorder := true, CursorLineStyled := false } }
    footer := W.footerNew ctx }

/-- The method `Init() tea.Cmd`. Its receiver is a copy of the model (value
receiver): `m.composer.Focus()` sets the focus flag of that copy, which is dropped
when `Init` returns. Only the batched command reaches the caller, and the program
goes on with the model `Init` was called on. -/
def Init {F : Type} (W : Widgets F) (m : Model F) : Cmd :=
  .Batch [.nil, W.footerInit m.footer, W.blinkCmd, W.composerFocusCmd m.composer]

/-- The function `emoji(messageType ai.MessageType) string`. -/
def emoji (messageType : MessageType) : GoString :=
  match messageType with
  | .System => utf8 "🤖"
  | .User => utf8 "👤"
  | .Assistant => utf8 "🤖"
  | .Tool => utf8 "🔧"
  | _ => utf8 ">"

/-- The inner loop of `renderMessages`:
`for _, line := range strings.Split(text, "\n") { chunks = append(chunks, split(line, width)...) }`,
started with the lines still to visit and the current `chunks`. -/
def wrapLines (fuel : Nat) (width : Int) : List GoString → List GoString →
    Result (List GoString)
  | [], chunks => .ok chunks
  | line :: rest, chunks =>
    match split fuel line width with
    | .ok cs => wrapLines fuel width rest (chunks ++ cs)
    | .panic => .panic
    | .outOfFuel => .outOfFuel

/-- The text one iteration of the outer loop of `renderMessages` computes for `msg`
and passes to `strings.Trim`: the prefixed text, split on newlines, each line
wrapped, rejoined with newlines. -/
def renderText (fuel : Nat) (width : Int) (msg : Message) : Result GoString :=
  let text := emoji msg.Type_ ++ utf8 " " ++ msg.Text
  match wrapLines fuel width (stringsSplit text) [] with
  | .ok chunks => .ok (stringsJoin chunks)
  | .panic => .panic
  | .outOfFuel => .outOfFuel

/-- The outer loop of `renderMessages`, `for idx, msg := range messages { ... }`,
started at index `idx` with the messages still to visit and the current content of
the string builder. -/
def renderLoop (fuel : Nat) (width : Int) : Nat → List Message → GoString → Result GoString
  | _, [], rendered => .ok rendered
  | idx, msg :: rest, rendered =>
    let rendered1 := if idx > 0 then rendered ++ utf8 "\n" else rendered
    match renderText fuel width msg with
    | .ok text => renderLoop fuel width (idx + 1) rest (rendered1 ++ (stringsTrim text ++ utf8 "\n"))
    | .panic => .panic
    | .outOfFuel => .outOfFuel

/-- The method `renderMessages`. -/
def renderMessages {F : Type} (fuel : Nat) (m : Model F) : Result GoString :=
  renderLoop fuel m.context.Width 0 m.context.Ai.session.Messages []

/-- The method `handleEnter`. -/
def handleEnter {F : Type} (m : Model F) : Model F × Cmd :=
  if m.context.Ai.session.IsRunning then
    -- AI is running, ignore the input
    (m, .nil)
  else
    let v := m.composer.Value
    if v = utf8 "" then (m, .nil)
    else if v = utf8 "/quit" then (m, .Quit)
    else
      let m1 := { m with composer := m.composer.Reset }
      let m2 := { m1 with context :=
        { m1.context with Ai :=
          { m1.context.Ai with Input := m1.context.Ai.Input ++ [NewUserMessage v] } } }
      let m3 := { m2 with viewport := m2.viewport.GotoBottom }
      (m3, .nil)

/-- Lines 78 to 82 of `Update`: the string handed to `viewport.SetContent`, the
welcome text or the rendered transcript. -/
def viewportContent {F : Type} (W : Widgets F) (fuel : Nat) (m : Model F) : Result GoString :=
  let session := m.context.Ai.session
  if !session.HasMessages && !session.IsRunning then
    .ok (W.renderBold (utf8 "Welcome to the AI CLI!"))
  else renderMessages fuel m

/-- Lines 84 to 94 of `Update`: the composer is focused and the event is forwarded
to the viewport, to the composer unless the session is running, and to the footer;
the commands are batched. -/
def forwardEvent {F : Type} (W : Widgets F) (msg : Msg) (m : Model F) : Model F × Cmd :=
  let session := m.context.Ai.session
  let cmds := [W.composerFocusCmd m.composer]
  let m := { m with composer := m.composer.Focus }
  let vp := W.viewportUpdate msg m.viewport
  let m := { m with viewport := vp.1 }
  let cmds := cmds ++ [vp.2]
  let cc : Composer × List Cmd :=
    if !session.IsRunning then
      -- Ignore input while AI is running
      let c := W.composerUpdate msg m.composer
      (c.1, cmds ++ [c.2])
    else (m.composer, cmds)
  let m := { m with composer := cc.1 }
  let cmds := cc.2
  let ft := W.footerUpdate m.context msg m.footer
  let m := { m with footer := ft.1 }
  let cmds := cmds ++ [ft.2]
  (m, .Batch cmds)

/-- The part of `Update` after the `switch`: lines 76 to 94 of `model.go`. -/
def updateCommon {F : Type} (W : Widgets F) (fuel : Nat) (msg : Msg) (m : Model F) :
    Result (Model F × Cmd) :=
  -- Update viewport
  match viewportContent W fuel m with
  | .panic => .panic
  | .outOfFuel => .outOfFuel
  | .ok s => .ok (forwardEvent W msg { m with viewport := m.viewport.SetContent s })

/-- The method `Update(msg tea.Msg) (tea.Model, tea.Cmd)`. -/
def Update {F : Type} (W : Widgets F) (fuel : Nat) (msg : Msg) (m : Model F) :
    Result (Model F × Cmd) :=
  match msg with
  | .KeyMsg key =>
    if key = utf8 "ctrl+c" ∨ key = utf8 "esc" then .ok (m, .Quit)
    else if key = utf8 "enter" then .ok (handleEnter m)
    else updateCommon W fuel msg m
  | .WindowSizeMsg width height =>
    let m := { m with context := { m.context with Width := width } }
    let m := { m with context := { m.context with Height := height } }
    let m := { m with composer := m.composer.SetWidth width }
    let m := { m with viewport := { m.viewport with Width := width } }
    let m := { m with viewport := { m.viewport with
      Height := intSub (intSub height composerHeight)
        (lipglossHeight (W.footerView m.context m.footer)) } }
    updateCommon W fuel msg m
  | .Notification =>
    -- AI is running and a new partial message is available
    let m := { m with viewport := m.viewport.GotoBottom }
    updateCommon W fuel msg m
  | .Other _ => updateCommon W fuel msg m

/-- Widgets that ignore every event, with a one-line footer: an instance of the
parameters used to evaluate the model on concrete inputs. -/
def idleWidgets : Widgets Unit :=
  { viewportUpdate := fun _ v => (v, .nil)
    composerUpdate := fun _ c => (c, .nil)
    composerFocusCmd := fun _ => .Widget 0
    blinkCmd := .Widget 1
    footerInit := fun _ => .nil
    footerNew := fun _ => ()
    footerUpdate := fun _ _ f => (f, .nil)
    footerView := fun _ _ => utf8 "ai-cli"
    renderBold := fun s => s
    Version := utf8 "0.0.0" }

/-- The layout width at which `Update` renders the transcript for the event `msg`:
the width a resize event carries, otherwise the width already in the context. -/
def renderWidth {F : Type} (msg : Msg) (m : Model F) : Int :=
  match msg with
  | .WindowSizeMsg width _ => width
  | _ => m.context.Width

/-! ## Predicates on rendered text -/

/-- Every line of `s` (as `strings.Split(s, "\n")` cuts it) has at most `n` bytes. -/
def LinesBounded (n : Nat) (s : GoString) : Prop := ∀ l ∈ stringsSplit s, l.length ≤ n

instance (n : Nat) (s : GoString) : Decidable (LinesBounded n s) := by
  unfold LinesBounded
  infer_instance

/-- The text `renderMessages` builds for a message before wrapping:
`emoji(msg.Type) + " " + msg.Text`. -/
def prefixedText (msg : Message) : GoString := emoji msg.Type_ ++ utf8 " " ++ msg.Text

/-- The string `s` with every newline byte deleted. -/
def deleteNewlines (s : GoString) : GoString := s.filter (fun c => c != newline)

/-- The lines a viewport holds once `SetContent(s)` has been called on it. -/
def contentLines (s : GoString) : List GoString := stringsSplit (replaceCRLF s)

/-- The static welcome text, `lipgloss.NewStyle().Bold(true).Render("Welcome to the AI CLI!")`. -/
def welcomeText {F : Type} (W : Widgets F) : GoString :=
  W.renderBold (utf8 "Welcome to the AI CLI!")

/-- The model as `Update` prepares it for a resize event before the common part:
lines 65 to 69 of `model.go`. -/
def resized {F : Type} (W : Widgets F) (width height : Int) (m : Model F) : Model F :=
  let m := { m with context := { m.context with Width := width } }
  let m := { m with context := { m.context with Height := height } }
  let m := { m with composer := m.composer.SetWidth width }
  let m := { m with viewport := { m.viewport with Width := width } }
  { m with viewport := { m.viewport with
      Height := intSub (intSub height composerHeight)
        (lipglossHeight (W.footerView m.context m.footer)) } }

/-- The effect of the `switch` of `Update` (lines 56 to 75) on the model for an event
that falls through to the common part. -/
def switchEffect {F : Type} (W : Widgets F) (msg : Msg) (m : Model F) : Model F :=
  match msg with
  | .WindowSizeMsg width height => resized W width height m
  | .Notification => { m with viewport := m.viewport.GotoBottom }
  | _ => m

/-! ## Concrete states -/

/-- The accept-key event: the key message whose `String()` is `"enter"`. -/
def enterKey : Msg := .KeyMsg (utf8 "enter")

/-- A session that is not running and has no messages. -/
def idleSession : Session := { running := false, messages := [] }

/-- The model right after construction, over an idle session. -/
def freshModel : Model Unit := NewModel idleWidgets { session := idleSession, Input := [] }

/-- A model whose composer holds `v` while the session is running or not. -/
def typedModel (running : Bool) (v : GoString) : Model Unit :=
  { freshModel with
    context := { freshModel.context with
      Ai := { session := { running := running, messages := [] }, Input := [] } }
    composer := { freshModel.composer with value := v, focus := true } }

/-- A model at layout width `width` whose session holds `messages`. -/
def transcriptModel (width : Int) (messages : List Message) : Model Unit :=
  { freshModel with
    context := { freshModel.context with
      Width := width
      Ai := { session := { running := false, messages := messages }, Input := [] } } }

/-- A model in the middle of an answer: the viewport, one line high, still holds the
transcript of the previous cycle (`"🤖 a"` and its line end) and is scrolled to its
bottom, while the running session already holds the longer message. -/
def streamingModel : Model Unit :=
  { freshModel with
    context := { freshModel.context with
      Width := 80
      Height := 4
      Ai := { session := { running := true, messages := [⟨.Assistant, utf8 "a\nb\nc"⟩] },
              Input := [] } }
    viewport := { Width := 80, Height := 1, YOffset := 1, lines := [utf8 "🤖 a", utf8 ""] }
    composer := { freshModel.composer with value := utf8 "draft", focus := true } }

/-- Widgets as `idleWidgets`, except that the composer appends every key it is sent
to its value. -/
def typingWidgets : Widgets Unit :=
  { idleWidgets with
    composerUpdate := fun msg c =>
      match msg with
      | .KeyMsg key => ({ c with value := c.value ++ key }, .nil)
      | _ => (c, .nil) }

/-! ## Submit -/

theorem enter_ne_quit_keys : ¬ (utf8 "enter" = utf8 "ctrl+c" ∨ utf8 "enter" = utf8 "esc") := by
  decide

theorem Update_enter {F : Type} (W : Widgets F) (fuel : Nat) (m : Model F) :
    Update W fuel enterKey m = .ok (handleEnter m) := by
  simp only [Update, enterKey, if_neg enter_ne_quit_keys, if_true]

/-- C1: when the session is not running and the composer value `v` is neither empty
nor `/quit`, an accept-key event returns a model in which exactly one message, the
user message with text `v`, has been appended to the session input, the composer
value is empty and the viewport scroll offset is the bottom offset; the command is
`nil`, not Quit. -/
theorem enter_submits {F : Type} (W : Widgets F) (fuel : Nat) (m : Model F)
    (hrun : m.context.Ai.session.IsRunning = false)
    (hne : m.composer.Value ≠ utf8 "")
    (hq : m.composer.Value ≠ utf8 "/quit") :
    ∃ m1 cmd, Update W fuel enterKey m = .ok (m1, cmd) ∧
      m1.context.Ai.Input = m.context.Ai.Input ++ [NewUserMessage m.composer.Value] ∧
      (NewUserMessage m.composer.Value).Type_ = .User ∧
      (NewUserMessage m.composer.Value).Text = m.composer.Value ∧
      m1.composer.Value = utf8 "" ∧
      m1.viewport.YOffset = m1.viewport.maxYOffset ∧
      cmd ≠ .Quit := by
  have hE : handleEnter m =
      ({ context := { m.context with Ai := { m.context.Ai with
            Input := m.context.Ai.Input ++ [NewUserMessage m.composer.Value] } }
         viewport := m.viewport.GotoBottom
         composer := m.composer.Reset
         footer := m.footer }, .nil) := by
    simp only [handleEnter, hrun, if_neg hne, if_neg hq]
    rfl
  refine ⟨_, _, by rw [Update_enter, hE], rfl, rfl, rfl, ?_, rfl, ?_⟩
  · show ([] : GoString) = utf8 ""
    decide
  · intro h
    cases h

theorem enter_submits_witness :
    ∃ m1 cmd, Update idleWidgets 0 enterKey (typedModel false (utf8 "hello")) = .ok (m1, cmd) ∧
      m1.context.Ai.Input =
        (typedModel false (utf8 "hello")).context.Ai.Input ++
          [NewUserMessage (typedModel false (utf8 "hello")).composer.Value] ∧
      (NewUserMessage (typedModel false (utf8 "hello")).composer.Value).Type_ = .User ∧
      (NewUserMessage (typedModel false (utf8 "hello")).composer.Value).Text =
        (typedModel false (utf8 "hello")).composer.Value ∧
      m1.composer.Value = utf8 "" ∧
      m1.viewport.YOffset = m1.viewport.maxYOffset ∧
      cmd ≠ .Quit :=
  enter_submits idleWidgets 0 (typedModel false (utf8 "hello")) rfl (by decide) (by decide)

/-- C2: an accept-key event is swallowed when the session is running, and when the
composer value is empty: `Update` returns the input model itself (so composer,
viewport, layout context and session input are unchanged) with the `nil` command. -/
theorem enter_swallowed {F : Type} (W : Widgets F) (fuel : Nat) (m : Model F)
    (h : m.context.Ai.session.IsRunning = true ∨
      (m.context.Ai.session.IsRunning = false ∧ m.composer.Value = utf8 "")) :
    Update W fuel enterKey m = .ok (m, .nil) := by
  rw [Update_enter]
  rcases h with h | ⟨h, hv⟩
  · simp only [handleEnter, h, if_true]
  · simp only [handleEnter, h, hv, if_true]
    rfl

theorem enter_swallowed_witness :
    Update idleWidgets 0 enterKey (typedModel true (utf8 "hello")) =
      .ok (typedModel true (utf8 "hello"), .nil) :=
  enter_swallowed idleWidgets 0 (typedModel true (utf8 "hello")) (Or.inl rfl)

/-- C3, as stated, fails: with the composer value `/quit` and the session running,
an accept-key event is swallowed and the command is `nil`, not Quit. -/
theorem quit_command_ignored_while_running :
    (typedModel true (utf8 "/quit")).composer.Value = utf8 "/quit" ∧
      Update idleWidgets 0 enterKey (typedModel true (utf8 "/quit")) =
        .ok (typedModel true (utf8 "/quit"), .nil) ∧
      Cmd.nil ≠ Cmd.Quit :=
  ⟨rfl, by rw [Update_enter]; rfl, by intro h; cases h⟩

/-- C3, amended: when the composer value is exactly `/quit`, an accept-key event
returns the input model unchanged (nothing is sent to the session input); the
command is Quit when the session is not running and `nil` when it is running. -/
theorem enter_quit_command {F : Type} (W : Widgets F) (fuel : Nat) (m : Model F)
    (hv : m.composer.Value = utf8 "/quit") :
    Update W fuel enterKey m =
      .ok (m, if m.context.Ai.session.IsRunning = true then .nil else .Quit) := by
  rw [Update_enter]
  have hne : ¬ (utf8 "/quit" = utf8 "") := by decide
  by_cases h : m.context.Ai.session.IsRunning = true
  · simp only [handleEnter, h, if_true]
  · simp only [handleEnter, h, hv, if_neg hne, if_true, if_false]
    rfl

theorem enter_quit_command_witness :
    Update idleWidgets 0 enterKey (typedModel false (utf8 "/quit")) =
      .ok (typedModel false (utf8 "/quit"),
        if (typedModel false (utf8 "/quit")).context.Ai.session.IsRunning = true then .nil
        else .Quit) :=
  enter_quit_command idleWidgets 0 (typedModel false (utf8 "/quit")) rfl


/-! ## `split` -/

theorem splitLoop_unfold (maxWidth : Int) (fuel : Nat) (str : GoString)
    (chunks : List GoString) :
    splitLoop maxWidth fuel str chunks =
      if len str > maxWidth then
        match fuel with
        | 0 => .outOfFuel
        | fuel + 1 =>
          match sliceTo str maxWidth with
          | none => .panic
          | some chunk =>
            match sliceFrom str maxWidth with
            | none => .panic
            | some rest => splitLoop maxWidth fuel rest (chunks ++ [chunk])
      else .ok (str, chunks) := by
  cases fuel <;> rw [splitLoop]

theorem splitLoop_ok (w : Nat) (hw : 0 < w) :
    ∀ (fuel : Nat) (str : GoString) (chunks : List GoString), str.length ≤ fuel →
      ∃ rest cs, splitLoop (w : Int) fuel str chunks = .ok (rest, chunks ++ cs) ∧
        cs.flatten ++ rest = str ∧ (∀ c ∈ cs, c.length = w) ∧ rest.length ≤ w ∧
        (str ≠ [] → rest ≠ []) := by
  intro fuel
  induction fuel with
  | zero =>
    intro str chunks hlen
    have hs : str = [] := List.length_eq_zero.mp (Nat.le_zero.mp hlen)
    subst hs
    refine ⟨[], [], ?_, by simp, by simp, by simp, by simp⟩
    rw [splitLoop_unfold]
    have : ¬ (len ([] : GoString) > (w : Int)) := by simp [len]
    simp [this]
  | succ fuel ih =>
    intro str chunks hlen
    rw [splitLoop_unfold]
    by_cases h : len str > (w : Int)
    · have hlt : w < str.length := by
        have : (w : Int) < (str.length : Int) := h
        exact_mod_cast this
      have h1 : sliceTo str (w : Int) = some (str.take w) := by
        have : (0 : Int) ≤ (w : Int) ∧ (w : Int) ≤ len str := ⟨by positivity, le_of_lt h⟩
        simp [sliceTo, this]
      have h2 : sliceFrom str (w : Int) = some (str.drop w) := by
        have : (0 : Int) ≤ (w : Int) ∧ (w : Int) ≤ len str := ⟨by positivity, le_of_lt h⟩
        simp [sliceFrom, this]
      have hd : (str.drop w).length ≤ fuel := by
        rw [List.length_drop]; omega
      obtain ⟨rest, cs, hrun, hcat, hall, hrest, hne⟩ := ih (str.drop w) (chunks ++ [str.take w]) hd
      refine ⟨rest, str.take w :: cs, ?_, ?_, ?_, hrest, ?_⟩
      · simp only [h, if_true, h1, h2, hrun]
        simp
      · simp only [List.flatten_cons, List.append_assoc, hcat, List.take_append_drop]
      · intro c hc
        rcases List.mem_cons.mp hc with rfl | hc
        · rw [List.length_take]; omega
        · exact hall c hc
      · intro _
        apply hne
        intro hnil
        have : (str.drop w).length = 0 := by rw [hnil]; rfl
        rw [List.length_drop] at this
        omega
    · refine ⟨str, [], ?_, by simp, by simp, ?_, fun hs => hs⟩
      · simp [h]
      · have : (str.length : Int) ≤ (w : Int) := not_lt.mp h
        exact_mod_cast this

theorem length_flatten_of_forall_length (w : Nat) (cs : List GoString)
    (h : ∀ c ∈ cs, c.length = w) : cs.flatten.length = cs.length * w := by
  induction cs with
  | nil => simp
  | cons c cs ih =>
    have hc : c.length = w := h c (List.mem_cons_self _ _)
    have := ih (fun d hd => h d (List.mem_cons_of_mem _ hd))
    simp only [List.flatten_cons, List.length_append, List.length_cons, hc, this]
    ring

/-- What `split` returns at a positive width, given enough iterations. -/
theorem split_ok (w : Nat) (hw : 0 < w) (fuel : Nat) (str : GoString)
    (hfuel : str.length ≤ fuel) :
    (str.length ≤ w ∧ split fuel str (w : Int) = .ok [str]) ∨
    (w < str.length ∧ ∃ cs last, split fuel str (w : Int) = .ok (cs ++ [last]) ∧
      cs.flatten ++ last = str ∧ (∀ c ∈ cs, c.length = w) ∧ last ≠ [] ∧ last.length ≤ w) := by
  by_cases h : len str ≤ (w : Int)
  · left
    refine ⟨?_, by simp [split, h]⟩
    have : (str.length : Int) ≤ (w : Int) := h
    exact_mod_cast this
  · right
    have hlt : w < str.length := by
      have : (w : Int) < (str.length : Int) := not_le.mp h
      exact_mod_cast this
    obtain ⟨rest, cs, hrun, hcat, hall, hrest, hne⟩ := splitLoop_ok w hw fuel str [] hfuel
    have hstr : str ≠ [] := by
      intro hs; rw [hs] at hlt; simp at hlt
    have hrne : rest ≠ [] := hne hstr
    have hpos : len rest > 0 := by
      have : 0 < rest.length := List.length_pos.mpr hrne
      show (0 : Int) < (rest.length : Int)
      exact_mod_cast this
    refine ⟨hlt, cs, rest, ?_, hcat, hall, hrne, hrest⟩
    simp only [split, h, if_false, hrun, List.nil_append, hpos, if_true]


/-- C4: at every width `w > 0`, given at least `len(s)` loop iterations, `split(s, w)`
returns, and concatenating the returned chunks in order reproduces `s`. -/
theorem split_lossless (s : GoString) (w : Int) (fuel : Nat) (hw : 0 < w)
    (hfuel : s.length ≤ fuel) :
    ∃ chunks, split fuel s w = .ok chunks ∧ chunks.flatten = s := by
  obtain ⟨n, rfl⟩ := Int.eq_ofNat_of_zero_le (le_of_lt hw)
  have hn : 0 < n := by exact_mod_cast hw
  rcases split_ok n hn fuel s hfuel with ⟨_, h⟩ | ⟨_, cs, last, h, hcat, _⟩
  · exact ⟨[s], h, by simp⟩
  · exact ⟨cs ++ [last], h, by simp [hcat]⟩

theorem split_lossless_witness :
    ∃ chunks, split 11 (utf8 "hello world") 3 = .ok chunks ∧
      chunks.flatten = utf8 "hello world" :=
  split_lossless (utf8 "hello world") 3 11 (by decide) (by decide)

/-- C5: at every width `w > 0` and for every `s` with `len(s) > w`, given at least
`len(s)` loop iterations, `split(s, w)` returns chunks `cs ++ [last]` where every
chunk of `cs` has length exactly `w` and `last` is non-empty of length at most `w`;
the number of chunks is the ceiling of `len(s) / w` and no chunk is empty. -/
theorem split_chunk_lengths (s : GoString) (w : Int) (fuel : Nat) (hw : 0 < w)
    (hlen : len s > w) (hfuel : s.length ≤ fuel) :
    ∃ cs last, split fuel s w = .ok (cs ++ [last]) ∧
      (∀ c ∈ cs, len c = w) ∧ 0 < len last ∧ len last ≤ w ∧
      (((cs ++ [last]).length : Int) = ⌈(len s : ℚ) / (w : ℚ)⌉) ∧
      (∀ c ∈ cs ++ [last], c ≠ []) := by
  obtain ⟨n, rfl⟩ := Int.eq_ofNat_of_zero_le (le_of_lt hw)
  have hn : 0 < n := by exact_mod_cast hw
  rcases split_ok n hn fuel s hfuel with ⟨hle, _⟩ | ⟨_, cs, last, h, hcat, hall, hne, hlast⟩
  · exfalso
    have : (n : Int) < (s.length : Int) := hlen
    have : n < s.length := by exact_mod_cast this
    omega
  · have hlastpos : 0 < last.length := List.length_pos.mpr hne
    have htotal : s.length = cs.length * n + last.length := by
      rw [← hcat, List.length_append, length_flatten_of_forall_length n cs hall]
    refine ⟨cs, last, h, ?_, ?_, ?_, ?_, ?_⟩
    · intro c hc
      show ((c.length : Nat) : Int) = (n : Int)
      exact_mod_cast hall c hc
    · show (0 : Int) < ((last.length : Nat) : Int)
      exact_mod_cast hlastpos
    · show ((last.length : Nat) : Int) ≤ (n : Int)
      exact_mod_cast hlast
    · symm
      rw [Int.ceil_eq_iff]
      have hnq : (0 : ℚ) < (n : ℚ) := by exact_mod_cast hn
      have hsq : ((len s : Int) : ℚ) = (cs.length : ℚ) * (n : ℚ) + (last.length : ℚ) := by
        show (((s.length : Nat) : Int) : ℚ) = _
        rw [htotal]
        push_cast
        ring
      have hl1 : (0 : ℚ) < (last.length : ℚ) := by exact_mod_cast hlastpos
      have hl2 : (last.length : ℚ) ≤ (n : ℚ) := by exact_mod_cast hlast
      simp only [List.length_append, List.length_singleton, Int.cast_natCast]
      rw [hsq]
      constructor
      · rw [lt_div_iff₀ hnq]
        push_cast
        nlinarith
      · rw [div_le_iff₀ hnq]
        push_cast
        nlinarith
    · intro c hc
      rcases List.mem_append.mp hc with hc | hc
      · intro hcn
        have := hall c hc
        rw [hcn] at this
        simp at this
        omega
      · rw [List.mem_singleton.mp hc]
        exact hne

theorem split_chunk_lengths_witness :
    ∃ cs last, split 11 (utf8 "hello world") 3 = .ok (cs ++ [last]) ∧
      (∀ c ∈ cs, len c = 3) ∧ 0 < len last ∧ len last ≤ 3 ∧
      (((cs ++ [last]).length : Int) = ⌈(len (utf8 "hello world") : ℚ) / ((3 : Int) : ℚ)⌉) ∧
      (∀ c ∈ cs ++ [last], c ≠ []) :=
  split_chunk_lengths (utf8 "hello world") 3 11 (by decide) (by decide) (by decide)

theorem splitLoop_zero_width (fuel : Nat) :
    ∀ (str : GoString) (chunks : List GoString), str ≠ [] →
      splitLoop 0 fuel str chunks = .outOfFuel := by
  induction fuel with
  | zero =>
    intro str chunks hne
    have hpos : len str > 0 := by
      have : 0 < str.length := List.length_pos.mpr hne
      show (0 : Int) < (str.length : Int)
      exact_mod_cast this
    rw [splitLoop_unfold]
    simp [hpos]
  | succ fuel ih =>
    intro str chunks hne
    have hpos : len str > 0 := by
      have : 0 < str.length := List.length_pos.mpr hne
      show (0 : Int) < (str.length : Int)
      exact_mod_cast this
    have hnn : (0 : Int) ≤ len str := le_of_lt hpos
    rw [splitLoop_unfold]
    simp only [hpos, if_true, sliceTo, sliceFrom, le_refl, true_and, hnn, Int.toNat_zero,
      List.take_zero, List.drop_zero]
    exact ih str _ hne

/-- At width 0 the loop of `split` never ends on a non-empty string: whatever the
iteration bound, it is used up. -/
theorem split_zero_width (fuel : Nat) (str : GoString) (hne : str ≠ []) :
    split fuel str 0 = .outOfFuel := by
  have hpos : ¬ (len str ≤ 0) := by
    have : 0 < str.length := List.length_pos.mpr hne
    have : (0 : Int) < (str.length : Int) := by exact_mod_cast this
    exact not_le.mpr this
  simp only [split, hpos, if_false, splitLoop_zero_width fuel str [] hne]

/-- At a negative width the first iteration of the loop of `split` panics. -/
theorem split_negative_width (fuel : Nat) (str : GoString) (w : Int) (hw : w < 0) :
    split (fuel + 1) str w = .panic := by
  have hlen : (0 : Int) ≤ len str := by
    show (0 : Int) ≤ (str.length : Int)
    positivity
  have h1 : ¬ (len str ≤ w) := by omega
  have h2 : len str > w := by omega
  have h3 : ¬ (0 ≤ w ∧ w ≤ len str) := by omega
  rw [split, if_neg h1, splitLoop_unfold, if_pos h2]
  simp only [sliceTo, if_neg h3]

/-- C6, the code at the failing inputs: `split("a", 0)` uses up every iteration
bound (the loop does not terminate), and `split("", -1)` panics in its first
iteration. -/
theorem split_nonpositive_width_fails :
    (∀ fuel : Nat, split fuel (utf8 "a") 0 = .outOfFuel) ∧
      (∀ fuel : Nat, split (fuel + 1) (utf8 "") (-1) = .panic) :=
  ⟨fun fuel => split_zero_width fuel (utf8 "a") (by decide),
    fun fuel => split_negative_width fuel (utf8 "") (-1) (by decide)⟩


/-! ## Lines, joins and trims -/

theorem utf8_newline : utf8 "\n" = [newline] := by decide

theorem stringsSplit_ne_nil (s : GoString) : stringsSplit s ≠ [] := by
  cases s with
  | nil => simp [stringsSplit]
  | cons c cs =>
    rw [stringsSplit]
    split_ifs
    · simp
    · split <;> simp

theorem stringsSplit_cons_newline (s : GoString) :
    stringsSplit (newline :: s) = [] :: stringsSplit s := by
  rw [stringsSplit, if_pos rfl]

theorem stringsSplit_cons_of_ne (c : UInt8) (s : GoString) (hc : c ≠ newline) :
    ∃ l ls, stringsSplit s = l :: ls ∧ stringsSplit (c :: s) = (c :: l) :: ls := by
  rcases hs : stringsSplit s with _ | ⟨l, ls⟩
  · exact absurd hs (stringsSplit_ne_nil s)
  · refine ⟨l, ls, rfl, ?_⟩
    rw [stringsSplit, if_neg hc, hs]

/-- A prefix without newlines stays in front of the first line. -/
theorem stringsSplit_append_of_not_mem (g s : GoString) (hg : newline ∉ g) :
    ∃ l ls, stringsSplit s = l :: ls ∧ stringsSplit (g ++ s) = (g ++ l) :: ls := by
  induction g with
  | nil =>
    rcases hs : stringsSplit s with _ | ⟨l, ls⟩
    · exact absurd hs (stringsSplit_ne_nil s)
    · exact ⟨l, ls, rfl, by simpa using hs⟩
  | cons c g ih =>
    have hc : c ≠ newline := fun h => hg (by simp [h])
    have hg1 : newline ∉ g := fun h => hg (List.mem_cons_of_mem _ h)
    obtain ⟨l, ls, h1, h2⟩ := ih hg1
    obtain ⟨l1, ls1, h3, h4⟩ := stringsSplit_cons_of_ne c (g ++ s) hc
    rw [h2] at h3
    injection h3 with h5 h6
    subst h5 h6
    exact ⟨l, ls, h1, by simpa using h4⟩

/-- The lines of `a ++ "\n" ++ b` are the lines of `a` followed by the lines of `b`. -/
theorem stringsSplit_append_newline (a b : GoString) :
    stringsSplit (a ++ newline :: b) = stringsSplit a ++ stringsSplit b := by
  induction a with
  | nil => simp [stringsSplit]
  | cons c a ih =>
    by_cases hc : c = newline
    · subst hc
      simp only [List.cons_append, stringsSplit_cons_newline, ih]
    · obtain ⟨l, ls, h1, h2⟩ := stringsSplit_cons_of_ne c a hc
      obtain ⟨l1, ls1, h3, h4⟩ := stringsSplit_cons_of_ne c (a ++ newline :: b) hc
      rw [ih, h1] at h3
      simp only [List.cons_append] at h3
      injection h3 with h5 h6
      subst h5 h6
      simp only [List.cons_append, h4, h2]

theorem stringsSplit_length_le (s : GoString) : ∀ l ∈ stringsSplit s, l.length ≤ s.length := by
  induction s with
  | nil => simp [stringsSplit]
  | cons c s ih =>
    by_cases hc : c = newline
    · subst hc
      rw [stringsSplit_cons_newline]
      intro l hl
      rcases List.mem_cons.mp hl with rfl | hl
      · simp
      · have := ih l hl
        simp only [List.length_cons]
        omega
    · obtain ⟨l0, ls, h1, h2⟩ := stringsSplit_cons_of_ne c s hc
      rw [h2]
      intro l hl
      rcases List.mem_cons.mp hl with rfl | hl
      · have := ih l0 (by rw [h1]; exact List.mem_cons_self _ _)
        simp only [List.length_cons]
        omega
      · have := ih l (by rw [h1]; exact List.mem_cons_of_mem _ hl)
        simp only [List.length_cons]
        omega

theorem stringsJoin_cons_cons (c d : GoString) (cs : List GoString) :
    stringsJoin (c :: d :: cs) = c ++ newline :: stringsJoin (d :: cs) := by
  rw [stringsJoin]
  intro h
  cases h

theorem stringsJoin_cons (c : GoString) (cs : List GoString) :
    ∃ t, stringsJoin (c :: cs) = c ++ t := by
  cases cs with
  | nil => exact ⟨[], by simp [stringsJoin]⟩
  | cons d cs => exact ⟨newline :: stringsJoin (d :: cs), stringsJoin_cons_cons c d cs⟩

theorem linesBounded_nil (n : Nat) : LinesBounded n [] := by
  intro l hl
  simp [stringsSplit] at hl
  simp [hl]

theorem linesBounded_of_length_le (n : Nat) (s : GoString) (h : s.length ≤ n) :
    LinesBounded n s := fun l hl => le_trans (stringsSplit_length_le s l hl) h

theorem linesBounded_append_newline (n : Nat) (a b : GoString) (ha : LinesBounded n a)
    (hb : LinesBounded n b) : LinesBounded n (a ++ newline :: b) := by
  intro l hl
  rw [stringsSplit_append_newline] at hl
  rcases List.mem_append.mp hl with h | h
  · exact ha l h
  · exact hb l h

theorem linesBounded_stringsJoin (n : Nat) (chunks : List GoString)
    (h : ∀ c ∈ chunks, c.length ≤ n) : LinesBounded n (stringsJoin chunks) := by
  induction chunks with
  | nil => simpa [stringsJoin] using linesBounded_nil n
  | cons c cs ih =>
    cases cs with
    | nil =>
      simpa [stringsJoin] using linesBounded_of_length_le n c (h c (List.mem_cons_self _ _))
    | cons d cs =>
      rw [stringsJoin_cons_cons]
      exact linesBounded_append_newline n _ _
        (linesBounded_of_length_le n c (h c (List.mem_cons_self _ _)))
        (ih (fun e he => h e (List.mem_cons_of_mem _ he)))

theorem trimLeft_cons_newline (s : GoString) : trimLeft (newline :: s) = trimLeft s := by
  rw [trimLeft, if_pos rfl]

theorem trimLeft_cons_of_ne (c : UInt8) (s : GoString) (hc : c ≠ newline) :
    trimLeft (c :: s) = c :: s := by
  rw [trimLeft, if_neg hc]

theorem trimLeft_head (s : GoString) : (trimLeft s).head? ≠ some newline := by
  induction s with
  | nil => simp [trimLeft]
  | cons c s ih =>
    by_cases hc : c = newline
    · subst hc; rw [trimLeft_cons_newline]; exact ih
    · rw [trimLeft_cons_of_ne c s hc]
      simpa using hc

/-- The trimmed string is what remains after some leading newlines. -/
theorem trimLeft_spec (s : GoString) : ∃ k, s = List.replicate k newline ++ trimLeft s := by
  induction s with
  | nil => exact ⟨0, by simp [trimLeft]⟩
  | cons c s ih =>
    by_cases hc : c = newline
    · subst hc
      obtain ⟨k, hk⟩ := ih
      refine ⟨k + 1, ?_⟩
      rw [trimLeft_cons_newline, List.replicate_succ, List.cons_append, ← hk]
    · exact ⟨0, by rw [trimLeft_cons_of_ne c s hc]; simp⟩

theorem trimLeft_append_cons (x y : GoString) (c : UInt8) (hc : c ≠ newline) :
    trimLeft (x ++ c :: y) = trimLeft x ++ c :: y := by
  induction x with
  | nil => simp [trimLeft, hc]
  | cons d x ih =>
    by_cases hd : d = newline
    · subst hd
      simp only [List.cons_append, trimLeft_cons_newline, ih]
    · simp only [List.cons_append, trimLeft_cons_of_ne d _ hd]

theorem trimRight_spec (s : GoString) : ∃ k, s = trimRight s ++ List.replicate k newline := by
  obtain ⟨k, hk⟩ := trimLeft_spec s.reverse
  refine ⟨k, ?_⟩
  have := congrArg List.reverse hk
  simpa [trimRight] using this

theorem trimRight_getLast (s : GoString) : (trimRight s).getLast? ≠ some newline := by
  rw [trimRight, List.getLast?_reverse]
  exact trimLeft_head _

theorem trimRight_cons_of_ne (c : UInt8) (s : GoString) (hc : c ≠ newline) :
    trimRight (c :: s) = c :: trimRight s := by
  simp only [trimRight, List.reverse_cons]
  have : s.reverse ++ [c] = s.reverse ++ c :: [] := rfl
  rw [this, trimLeft_append_cons _ _ _ hc]
  simp

theorem trimRight_append_of_not_mem (g s : GoString) (hg : newline ∉ g) :
    trimRight (g ++ s) = g ++ trimRight s := by
  induction g with
  | nil => simp
  | cons c g ih =>
    have hc : c ≠ newline := fun h => hg (by simp [h])
    have hg1 : newline ∉ g := fun h => hg (List.mem_cons_of_mem _ h)
    rw [List.cons_append, trimRight_cons_of_ne c _ hc, ih hg1, List.cons_append]

/-- Trimming keeps a non-empty prefix that contains no newline. -/
theorem stringsTrim_append_of_not_mem (g s : GoString) (hne : g ≠ []) (hg : newline ∉ g) :
    stringsTrim (g ++ s) = g ++ trimRight s := by
  cases g with
  | nil => exact absurd rfl hne
  | cons c g =>
    have hc : c ≠ newline := fun h => hg (by simp [h])
    rw [stringsTrim, List.cons_append, trimLeft_cons_of_ne c _ hc, ← List.cons_append,
      trimRight_append_of_not_mem _ _ hg]

theorem stringsTrim_head (s : GoString) : (stringsTrim s).head? ≠ some newline := by
  obtain ⟨k, hk⟩ := trimRight_spec (trimLeft s)
  have h := trimLeft_head s
  rw [stringsTrim]
  cases ht : trimRight (trimLeft s) with
  | nil => simp
  | cons c t =>
    rw [ht] at hk
    rw [hk] at h
    simpa using h

theorem stringsTrim_getLast (s : GoString) : (stringsTrim s).getLast? ≠ some newline :=
  trimRight_getLast _

theorem linesBounded_trimLeft (n : Nat) (s : GoString) (h : LinesBounded n s) :
    LinesBounded n (trimLeft s) := by
  induction s with
  | nil => simpa [trimLeft] using h
  | cons c s ih =>
    by_cases hc : c = newline
    · subst hc
      rw [trimLeft_cons_newline]
      apply ih
      intro l hl
      exact h l (by rw [stringsSplit_cons_newline]; exact List.mem_cons_of_mem _ hl)
    · rw [trimLeft_cons_of_ne c s hc]; exact h

theorem linesBounded_of_append_replicate (n : Nat) (a : GoString) (k : Nat)
    (h : LinesBounded n (a ++ List.replicate k newline)) : LinesBounded n a := by
  cases k with
  | zero => simpa using h
  | succ k =>
    intro l hl
    apply h l
    rw [List.replicate_succ, stringsSplit_append_newline]
    exact List.mem_append_left _ hl

theorem linesBounded_stringsTrim (n : Nat) (s : GoString) (h : LinesBounded n s) :
    LinesBounded n (stringsTrim s) := by
  obtain ⟨k, hk⟩ := trimRight_spec (trimLeft s)
  have h1 := linesBounded_trimLeft n s h
  rw [hk] at h1
  exact linesBounded_of_append_replicate n _ k h1

/-! ## `renderMessages` -/

/-- At a positive width the first chunk of `split` is the first `w` bytes of the
line, and no chunk is longer than `w`. -/
theorem split_head (w : Nat) (hw : 0 < w) (fuel : Nat) (str : GoString)
    (hfuel : str.length ≤ fuel) :
    ∃ more, split fuel str (w : Int) = .ok (str.take w :: more) ∧
      ∀ c ∈ str.take w :: more, c.length ≤ w := by
  rcases split_ok w hw fuel str hfuel with ⟨hle, h⟩ | ⟨hlt, cs, last, h, hcat, hall, hne, hlast⟩
  · refine ⟨[], by rw [List.take_of_length_le hle]; exact h, ?_⟩
    intro c hc
    rw [List.mem_singleton.mp hc, List.length_take]
    omega
  · cases cs with
    | nil =>
      exfalso
      simp only [List.flatten_nil, List.nil_append] at hcat
      rw [hcat] at hlast
      omega
    | cons c cs =>
      have hc : c.length = w := hall c (List.mem_cons_self _ _)
      have htake : str.take w = c := by
        rw [← hcat, List.flatten_cons, List.append_assoc, ← hc]
        exact List.take_left' rfl
      refine ⟨cs ++ [last], by rw [htake]; simpa using h, ?_⟩
      intro d hd
      rw [htake] at hd
      rcases List.mem_cons.mp hd with rfl | hd
      · omega
      · rcases List.mem_append.mp hd with hd | hd
        · exact le_of_eq (hall d (List.mem_cons_of_mem _ hd))
        · rw [List.mem_singleton.mp hd]; exact hlast

theorem wrapLines_ok (w : Nat) (hw : 0 < w) (fuel : Nat) :
    ∀ (lines : List GoString) (chunks : List GoString), (∀ l ∈ lines, l.length ≤ fuel) →
      ∃ wrapped : List (List GoString),
        List.Forall₂ (fun line cs => split fuel line (w : Int) = .ok cs) lines wrapped ∧
        wrapLines fuel (w : Int) lines chunks = .ok (chunks ++ wrapped.flatten) ∧
        (∀ c ∈ wrapped.flatten, c.length ≤ w) ∧
        (∀ l ls, lines = l :: ls → ∃ more, wrapped.flatten = l.take w :: more) := by
  intro lines
  induction lines with
  | nil =>
    intro chunks _
    exact ⟨[], List.Forall₂.nil, by simp [wrapLines], by simp, by simp⟩
  | cons line rest ih =>
    intro chunks hlen
    obtain ⟨more, hsplit, hbound⟩ :=
      split_head w hw fuel line (hlen line (List.mem_cons_self _ _))
    obtain ⟨wrapped, hall, hrun, hle, _⟩ :=
      ih (chunks ++ line.take w :: more) (fun l hl => hlen l (List.mem_cons_of_mem _ hl))
    refine ⟨(line.take w :: more) :: wrapped, List.Forall₂.cons hsplit hall, ?_, ?_, ?_⟩
    · rw [wrapLines, hsplit]
      simp only [hrun, List.flatten_cons, List.append_assoc]
    · intro c hc
      rw [List.flatten_cons] at hc
      rcases List.mem_append.mp hc with hc | hc
      · exact hbound c hc
      · exact hle c hc
    · intro l ls hl
      injection hl with h1 h2
      subst h1
      exact ⟨more ++ wrapped.flatten, by simp⟩

theorem emoji_space_no_newline (t : MessageType) : newline ∉ emoji t ++ utf8 " " := by
  cases t with
  | System => decide
  | User => decide
  | Assistant => decide
  | Tool => decide
  | Unknown code =>
    show newline ∉ utf8 ">" ++ utf8 " "
    decide

theorem emoji_no_newline (t : MessageType) : newline ∉ emoji t := fun h =>
  emoji_space_no_newline t (List.mem_append_left _ h)

theorem emoji_length (t : MessageType) : 1 ≤ (emoji t).length ∧ (emoji t).length ≤ 4 := by
  cases t with
  | System => decide
  | User => decide
  | Assistant => decide
  | Tool => decide
  | Unknown code =>
    show 1 ≤ (utf8 ">").length ∧ (utf8 ">").length ≤ 4
    decide

/-- What one iteration of the outer loop computes at a positive width: every line of
the prefixed text is wrapped by `split`, no chunk is longer than the width, and the
joined text starts with the first `w` bytes of the first line. -/
theorem renderText_ok (w : Nat) (hw : 0 < w) (fuel : Nat) (msg : Message)
    (hfuel : msg.Text.length + 5 ≤ fuel) :
    ∃ wrapped : List (List GoString),
      List.Forall₂ (fun line cs => split fuel line (w : Int) = .ok cs)
        (stringsSplit (emoji msg.Type_ ++ utf8 " " ++ msg.Text)) wrapped ∧
      renderText fuel (w : Int) msg = .ok (stringsJoin wrapped.flatten) ∧
      (∀ c ∈ wrapped.flatten, c.length ≤ w) ∧
      ∃ x t, stringsJoin wrapped.flatten = (emoji msg.Type_ ++ x).take w ++ t := by
  have hlines : ∀ l ∈ stringsSplit (emoji msg.Type_ ++ utf8 " " ++ msg.Text),
      l.length ≤ fuel := by
    intro l hl
    have h1 := stringsSplit_length_le _ l hl
    have h2 := (emoji_length msg.Type_).2
    have h3 : (utf8 " ").length = 1 := by decide
    simp only [List.length_append, h3] at h1
    omega
  obtain ⟨wrapped, hall, hrun, hle, hfirst⟩ := wrapLines_ok w hw fuel _ [] hlines
  obtain ⟨l, ls, _, hsplit⟩ :=
    stringsSplit_append_of_not_mem (emoji msg.Type_ ++ utf8 " ") msg.Text
      (emoji_space_no_newline msg.Type_)
  obtain ⟨more, hmore⟩ := hfirst _ _ hsplit
  obtain ⟨t, ht⟩ := stringsJoin_cons ((emoji msg.Type_ ++ utf8 " " ++ l).take w) more
  refine ⟨wrapped, hall, ?_, hle, utf8 " " ++ l, t, ?_⟩
  · simp only [renderText, hrun, List.nil_append]
  · rw [hmore, ht, List.append_assoc]

/-- The outer loop after its first iteration: every remaining message adds one
newline, its trimmed text and one more newline. -/
theorem renderLoop_succ (fuel : Nat) (width : Int) (P : Message → GoString → Prop) :
    ∀ (msgs : List Message) (idx : Nat) (rendered : GoString),
      (∀ msg ∈ msgs, ∃ text, renderText fuel width msg = .ok text ∧ P msg (stringsTrim text)) →
      ∃ blocks : List GoString, List.Forall₂ P msgs blocks ∧
        renderLoop fuel width (idx + 1) msgs rendered =
          .ok (rendered ++ (blocks.map (fun b => utf8 "\n" ++ b ++ utf8 "\n")).flatten) := by
  intro msgs
  induction msgs with
  | nil =>
    intro idx rendered _
    exact ⟨[], List.Forall₂.nil, by simp [renderLoop]⟩
  | cons msg rest ih =>
    intro idx rendered h
    obtain ⟨text, htext, hP⟩ := h msg (List.mem_cons_self _ _)
    obtain ⟨blocks, hall, hrun⟩ := ih (idx + 1)
      (rendered ++ utf8 "\n" ++ (stringsTrim text ++ utf8 "\n"))
      (fun m hm => h m (List.mem_cons_of_mem _ hm))
    refine ⟨stringsTrim text :: blocks, List.Forall₂.cons hP hall, ?_⟩
    rw [renderLoop, htext]
    simp only [Nat.succ_pos, if_true, gt_iff_lt]
    rw [hrun]
    simp only [List.map_cons, List.flatten_cons, List.append_assoc]

/-- The whole of `renderMessages` on a non-empty transcript, when every message
renders: the first block and a newline, then for each further message a newline,
its block and a newline. -/
theorem renderMessages_ok {F : Type} (fuel : Nat) (m : Model F)
    (P : Message → GoString → Prop)
    (hne : m.context.Ai.session.Messages ≠ [])
    (h : ∀ msg ∈ m.context.Ai.session.Messages,
      ∃ text, renderText fuel m.context.Width msg = .ok text ∧ P msg (stringsTrim text)) :
    ∃ (block : GoString) (blocks : List GoString),
      List.Forall₂ P m.context.Ai.session.Messages (block :: blocks) ∧
      renderMessages fuel m =
        .ok (block ++ utf8 "\n" ++
          (blocks.map (fun b => utf8 "\n" ++ b ++ utf8 "\n")).flatten) := by
  rw [renderMessages]
  rcases hm : m.context.Ai.session.Messages with _ | ⟨msg, rest⟩
  · exact absurd hm hne
  · rw [hm] at h
    obtain ⟨text, htext, hP⟩ := h msg (List.mem_cons_self _ _)
    obtain ⟨blocks, hall, hrun⟩ := renderLoop_succ fuel m.context.Width P rest 0
      ([] ++ (stringsTrim text ++ utf8 "\n")) (fun m hm => h m (List.mem_cons_of_mem _ hm))
    refine ⟨stringsTrim text, blocks, List.Forall₂.cons hP hall, ?_⟩
    rw [renderLoop, htext]
    simp only [gt_iff_lt, lt_self_iff_false, if_false, Nat.zero_add] at hrun ⊢
    rw [hrun]
    simp only [List.nil_append, List.append_assoc]

theorem forall₂_right {α β : Type} (Q : β → Prop) (P : α → β → Prop)
    (hPQ : ∀ a b, P a b → Q b) :
    ∀ (l₁ : List α) (l₂ : List β), List.Forall₂ P l₁ l₂ → ∀ b ∈ l₂, Q b := by
  intro l₁ l₂ h
  induction h with
  | nil => simp
  | cons hab _ ih =>
    intro b hb
    rcases List.mem_cons.mp hb with rfl | hb
    · exact hPQ _ _ hab
    · exact ih b hb

theorem linesBounded_blocks (n : Nat) (blocks : List GoString)
    (h : ∀ b ∈ blocks, LinesBounded n b) :
    LinesBounded n (blocks.map (fun b => utf8 "\n" ++ b ++ utf8 "\n")).flatten := by
  induction blocks with
  | nil => simpa using linesBounded_nil n
  | cons b bs ih =>
    have hb := h b (List.mem_cons_self _ _)
    have hbs := ih (fun c hc => h c (List.mem_cons_of_mem _ hc))
    simp only [List.map_cons, List.flatten_cons, utf8_newline, List.append_assoc,
      List.singleton_append]
    have := linesBounded_append_newline n [] _ (linesBounded_nil n)
      (linesBounded_append_newline n b _ hb hbs)
    simpa using this

/-- The trimmed text of a message at a positive width starts with the first `w`
bytes of the glyph. -/
theorem block_take_glyph (w : Nat) (hw : 0 < w) (t : MessageType) (x tl : GoString) :
    ∃ rest, stringsTrim ((emoji t ++ x).take w ++ tl) = (emoji t).take w ++ rest ∧
      (emoji t).take w ≠ [] := by
  have hne : (emoji t).take w ≠ [] := by
    intro h
    have h1 := (emoji_length t).1
    have h2 : ((emoji t).take w).length = 0 := by rw [h]; rfl
    rw [List.length_take] at h2
    omega
  have hmem : newline ∉ (emoji t).take w := fun h => emoji_no_newline t (List.mem_of_mem_take h)
  refine ⟨trimRight ((x.take (w - (emoji t).length)) ++ tl), ?_, hne⟩
  rw [List.take_append_eq_append_take, List.append_assoc,
    stringsTrim_append_of_not_mem _ _ hne hmem]

/-- C7: at a width > 0, on a non-empty sequence of `n` messages and given enough
loop iterations, `renderMessages` returns the first message's block and its line
end, followed for each of the `n - 1` further messages, in order, by one empty line
(a single newline), the message's block and its line end. The block of a message is
its prefixed text (glyph, space, text) split on newlines, each line wrapped by
`split` at the width, the chunks rejoined with newlines and trimmed of newlines; a
block is not empty and neither begins nor ends with a newline. -/
theorem renderMessages_blocks {F : Type} (fuel : Nat) (m : Model F)
    (hw : 0 < m.context.Width)
    (hne : m.context.Ai.session.Messages ≠ [])
    (hfuel : ∀ msg ∈ m.context.Ai.session.Messages, msg.Text.length + 5 ≤ fuel) :
    ∃ (block : GoString) (blocks : List GoString),
      renderMessages fuel m =
        .ok (block ++ utf8 "\n" ++
          (blocks.map (fun b => utf8 "\n" ++ b ++ utf8 "\n")).flatten) ∧
      blocks.length = m.context.Ai.session.Messages.length - 1 ∧
      List.Forall₂
        (fun msg b =>
          (∃ wrapped : List (List GoString),
            List.Forall₂ (fun line cs => split fuel line m.context.Width = .ok cs)
              (stringsSplit (emoji msg.Type_ ++ utf8 " " ++ msg.Text)) wrapped ∧
            b = stringsTrim (stringsJoin wrapped.flatten)) ∧
          b ≠ [] ∧ b.head? ≠ some newline ∧ b.getLast? ≠ some newline)
        m.context.Ai.session.Messages (block :: blocks) := by
  obtain ⟨n, hn⟩ := Int.eq_ofNat_of_zero_le (le_of_lt hw)
  have hnpos : 0 < n := by rw [hn] at hw; exact_mod_cast hw
  obtain ⟨block, blocks, hall, hrun⟩ := renderMessages_ok fuel m
    (fun msg b =>
      (∃ wrapped : List (List GoString),
        List.Forall₂ (fun line cs => split fuel line m.context.Width = .ok cs)
          (stringsSplit (emoji msg.Type_ ++ utf8 " " ++ msg.Text)) wrapped ∧
        b = stringsTrim (stringsJoin wrapped.flatten)) ∧
      b ≠ [] ∧ b.head? ≠ some newline ∧ b.getLast? ≠ some newline) hne
    (by
      intro msg hmsg
      rw [hn]
      obtain ⟨wrapped, hwr, hrun, _, x, t, hx⟩ := renderText_ok n hnpos fuel msg (hfuel msg hmsg)
      refine ⟨_, hrun, ⟨wrapped, hwr, rfl⟩, ?_, stringsTrim_head _, stringsTrim_getLast _⟩
      obtain ⟨rest, hrest, hne1⟩ := block_take_glyph n hnpos msg.Type_ x t
      rw [hx, hrest]
      intro h
      exact hne1 (List.append_eq_nil.mp h).1)
  refine ⟨block, blocks, hrun, ?_, hall⟩
  have := hall.length_eq
  simp only [List.length_cons] at this
  omega

theorem renderMessages_blocks_witness :
    ∃ (block : GoString) (blocks : List GoString),
      renderMessages 10
          (transcriptModel 80 [⟨.User, utf8 "hi"⟩, ⟨.Assistant, utf8 "hello"⟩]) =
        .ok (block ++ utf8 "\n" ++
          (blocks.map (fun b => utf8 "\n" ++ b ++ utf8 "\n")).flatten) ∧
      blocks.length =
        (transcriptModel 80
          [⟨.User, utf8 "hi"⟩, ⟨.Assistant, utf8 "hello"⟩]).context.Ai.session.Messages.length
          - 1 ∧
      List.Forall₂
        (fun msg b =>
          (∃ wrapped : List (List GoString),
            List.Forall₂
              (fun line cs =>
                split 10 line
                  (transcriptModel 80
                    [⟨.User, utf8 "hi"⟩, ⟨.Assistant, utf8 "hello"⟩]).context.Width = .ok cs)
              (stringsSplit (emoji msg.Type_ ++ utf8 " " ++ msg.Text)) wrapped ∧
            b = stringsTrim (stringsJoin wrapped.flatten)) ∧
          b ≠ [] ∧ b.head? ≠ some newline ∧ b.getLast? ≠ some newline)
        (transcriptModel 80
          [⟨.User, utf8 "hi"⟩, ⟨.Assistant, utf8 "hello"⟩]).context.Ai.session.Messages
        (block :: blocks) :=
  renderMessages_blocks 10
    (transcriptModel 80 [⟨.User, utf8 "hi"⟩, ⟨.Assistant, utf8 "hello"⟩])
    (by decide) (by decide) (by decide)

/-- C8: at a width > 0, for every sequence of messages and given enough loop
iterations, `renderMessages` returns, and every line of its output (the output split
on newlines) has at most `width` bytes. -/
theorem renderMessages_lines_bounded {F : Type} (fuel : Nat) (m : Model F)
    (hw : 0 < m.context.Width)
    (hfuel : ∀ msg ∈ m.context.Ai.session.Messages, msg.Text.length + 5 ≤ fuel) :
    ∃ out, renderMessages fuel m = .ok out ∧
      ∀ l ∈ stringsSplit out, len l ≤ m.context.Width := by
  obtain ⟨n, hn⟩ := Int.eq_ofNat_of_zero_le (le_of_lt hw)
  have hnpos : 0 < n := by rw [hn] at hw; exact_mod_cast hw
  have key : ∃ out, renderMessages fuel m = .ok out ∧ LinesBounded n out := by
    by_cases hne : m.context.Ai.session.Messages = []
    · refine ⟨[], ?_, linesBounded_nil n⟩
      rw [renderMessages, hne, renderLoop]
    · obtain ⟨block, blocks, hall, hrun⟩ := renderMessages_ok fuel m
        (fun _ b => LinesBounded n b) hne
        (by
          intro msg hmsg
          rw [hn]
          obtain ⟨wrapped, _, hrun, hle, _⟩ := renderText_ok n hnpos fuel msg (hfuel msg hmsg)
          exact ⟨_, hrun, linesBounded_stringsTrim n _ (linesBounded_stringsJoin n _ hle)⟩)
      have hb := forall₂_right (fun b => LinesBounded n b) _ (fun _ _ h => h) _ _ hall
      refine ⟨_, hrun, ?_⟩
      rw [utf8_newline, List.append_assoc, List.singleton_append]
      exact linesBounded_append_newline n block _ (hb block (List.mem_cons_self _ _))
        (by
          have := linesBounded_blocks n blocks (fun b hb1 => hb b (List.mem_cons_of_mem _ hb1))
          rwa [utf8_newline] at this)
  obtain ⟨out, hout, hlb⟩ := key
  refine ⟨out, hout, ?_⟩
  intro l hl
  rw [hn]
  show ((l.length : Nat) : Int) ≤ (n : Int)
  exact_mod_cast hlb l hl

theorem renderMessages_lines_bounded_witness :
    ∃ out,
      renderMessages 10
          (transcriptModel 3 [⟨.User, utf8 "hi"⟩, ⟨.Assistant, utf8 "hello"⟩]) = .ok out ∧
      ∀ l ∈ stringsSplit out,
        len l ≤
          (transcriptModel 3 [⟨.User, utf8 "hi"⟩, ⟨.Assistant, utf8 "hello"⟩]).context.Width :=
  renderMessages_lines_bounded 10
    (transcriptModel 3 [⟨.User, utf8 "hi"⟩, ⟨.Assistant, utf8 "hello"⟩])
    (by decide) (by decide)

/-- C9, as stated, fails: at width 2 the block of the User message `hi` is the
person glyph cut in two by a newline, so the block does not begin with the glyph. -/
theorem glyph_cut_at_narrow_width :
    renderMessages 10 (transcriptModel 2 [⟨.User, utf8 "hi"⟩]) =
        .ok ([240, 159, 10, 145, 164, 10, 32, 104, 10, 105] ++ utf8 "\n") ∧
      renderText 10 2 ⟨.User, utf8 "hi"⟩ = .ok [240, 159, 10, 145, 164, 10, 32, 104, 10, 105] ∧
      stringsTrim [240, 159, 10, 145, 164, 10, 32, 104, 10, 105] =
        [240, 159, 10, 145, 164, 10, 32, 104, 10, 105] ∧
      ¬ (emoji .User <+: [240, 159, 10, 145, 164, 10, 32, 104, 10, 105]) := by
  decide

/-- C9, amended: at a width > 0, on a non-empty sequence of messages and given
enough loop iterations, the block of every message whose glyph has at most `width`
bytes begins with the glyph the type-to-glyph mapping `emoji` assigns to the
message's type. -/
theorem block_begins_with_glyph {F : Type} (fuel : Nat) (m : Model F)
    (hw : 0 < m.context.Width)
    (hne : m.context.Ai.session.Messages ≠ [])
    (hfuel : ∀ msg ∈ m.context.Ai.session.Messages, msg.Text.length + 5 ≤ fuel) :
    ∃ (block : GoString) (blocks : List GoString),
      renderMessages fuel m =
        .ok (block ++ utf8 "\n" ++
          (blocks.map (fun b => utf8 "\n" ++ b ++ utf8 "\n")).flatten) ∧
      List.Forall₂
        (fun msg b =>
          (∃ text, renderText fuel m.context.Width msg = .ok text ∧ b = stringsTrim text) ∧
          (len (emoji msg.Type_) ≤ m.context.Width → emoji msg.Type_ <+: b))
        m.context.Ai.session.Messages (block :: blocks) := by
  obtain ⟨n, hn⟩ := Int.eq_ofNat_of_zero_le (le_of_lt hw)
  have hnpos : 0 < n := by rw [hn] at hw; exact_mod_cast hw
  obtain ⟨block, blocks, hall, hrun⟩ := renderMessages_ok fuel m
    (fun msg b =>
      (∃ text, renderText fuel m.context.Width msg = .ok text ∧ b = stringsTrim text) ∧
      (len (emoji msg.Type_) ≤ m.context.Width → emoji msg.Type_ <+: b)) hne
    (by
      intro msg hmsg
      rw [hn]
      obtain ⟨wrapped, _, hrun, _, x, t, hx⟩ := renderText_ok n hnpos fuel msg (hfuel msg hmsg)
      refine ⟨_, hrun, ⟨_, hrun, rfl⟩, ?_⟩
      intro hlen
      have hle : (emoji msg.Type_).length ≤ n := by
        have : (((emoji msg.Type_).length : Nat) : Int) ≤ (n : Int) := hlen
        exact_mod_cast this
      obtain ⟨rest, hrest, _⟩ := block_take_glyph n hnpos msg.Type_ x t
      rw [hx, hrest, List.take_of_length_le hle]
      exact List.prefix_append _ _)
  exact ⟨block, blocks, hrun, hall⟩

theorem block_begins_with_glyph_witness :
    ∃ (block : GoString) (blocks : List GoString),
      renderMessages 10
          (transcriptModel 4 [⟨.User, utf8 "hi"⟩, ⟨.Unknown 7, utf8 "hello"⟩]) =
        .ok (block ++ utf8 "\n" ++
          (blocks.map (fun b => utf8 "\n" ++ b ++ utf8 "\n")).flatten) ∧
      List.Forall₂
        (fun msg b =>
          (∃ text,
            renderText 10
              (transcriptModel 4
                [⟨.User, utf8 "hi"⟩, ⟨.Unknown 7, utf8 "hello"⟩]).context.Width msg =
              .ok text ∧ b = stringsTrim text) ∧
          (len (emoji msg.Type_) ≤
              (transcriptModel 4
                [⟨.User, utf8 "hi"⟩, ⟨.Unknown 7, utf8 "hello"⟩]).context.Width →
            emoji msg.Type_ <+: b))
        (transcriptModel 4
          [⟨.User, utf8 "hi"⟩, ⟨.Unknown 7, utf8 "hello"⟩]).context.Ai.session.Messages
        (block :: blocks) :=
  block_begins_with_glyph 10
    (transcriptModel 4 [⟨.User, utf8 "hi"⟩, ⟨.Unknown 7, utf8 "hello"⟩])
    (by decide) (by decide) (by decide)

/-! ## `Update` -/

theorem renderMessages_returns {F : Type} (fuel : Nat) (m : Model F)
    (hw : 0 < m.context.Width)
    (hfuel : ∀ msg ∈ m.context.Ai.session.Messages, msg.Text.length + 5 ≤ fuel) :
    ∃ out, renderMessages fuel m = .ok out := by
  obtain ⟨n, hn⟩ := Int.eq_ofNat_of_zero_le (le_of_lt hw)
  have hnpos : 0 < n := by rw [hn] at hw; exact_mod_cast hw
  by_cases hne : m.context.Ai.session.Messages = []
  · exact ⟨[], by rw [renderMessages, hne, renderLoop]⟩
  · obtain ⟨block, blocks, _, hrun⟩ := renderMessages_ok fuel m (fun _ _ => True) hne
      (by
        intro msg hmsg
        rw [hn]
        obtain ⟨wrapped, _, hrun, _⟩ := renderText_ok n hnpos fuel msg (hfuel msg hmsg)
        exact ⟨_, hrun, trivial⟩)
    exact ⟨_, hrun⟩

/-- The common part of `Update` returns when the welcome text is shown, and when the
layout width is positive and the iteration bound is large enough. -/
theorem updateCommon_returns {F : Type} (W : Widgets F) (fuel : Nat) (msg : Msg) (m : Model F)
    (h : (m.context.Ai.session.HasMessages = false ∧ m.context.Ai.session.IsRunning = false) ∨
      (0 < m.context.Width ∧
        ∀ msg ∈ m.context.Ai.session.Messages, msg.Text.length + 5 ≤ fuel)) :
    ∃ s, viewportContent W fuel m = .ok s ∧
      updateCommon W fuel msg m =
        .ok (forwardEvent W msg { m with viewport := m.viewport.SetContent s }) := by
  have hc : ∃ s, viewportContent W fuel m = .ok s := by
    by_cases hidle : (!m.context.Ai.session.HasMessages && !m.context.Ai.session.IsRunning) = true
    · exact ⟨W.renderBold (utf8 "Welcome to the AI CLI!"),
        by simp only [viewportContent, hidle, if_true]⟩
    · rcases h with ⟨h1, h2⟩ | ⟨hw, hfuel⟩
      · simp [h1, h2] at hidle
      · obtain ⟨out, hout⟩ := renderMessages_returns fuel m hw hfuel
        exact ⟨out, by simp only [viewportContent, hidle, hout]; simp⟩
  obtain ⟨s, hs⟩ := hc
  exact ⟨s, hs, by simp only [updateCommon, hs]⟩

theorem updateCommon_eq_ok {F : Type} (W : Widgets F) (fuel : Nat) (msg : Msg)
    (m : Model F) (r : Model F × Cmd) (h : updateCommon W fuel msg m = .ok r) :
    ∃ s, viewportContent W fuel m = .ok s ∧
      r = forwardEvent W msg { m with viewport := m.viewport.SetContent s } := by
  rw [updateCommon] at h
  rcases hc : viewportContent W fuel m with s | _ | _
  · rw [hc] at h
    injection h with h
    exact ⟨s, rfl, h.symm⟩
  · rw [hc] at h; cases h
  · rw [hc] at h; cases h

theorem updateCommon_pair {F : Type} (W : Widgets F) (fuel : Nat) (msg : Msg) (m : Model F)
    (h : (m.context.Ai.session.HasMessages = false ∧ m.context.Ai.session.IsRunning = false) ∨
      (0 < m.context.Width ∧
        ∀ msg ∈ m.context.Ai.session.Messages, msg.Text.length + 5 ≤ fuel)) :
    ∃ m1 cmd, updateCommon W fuel msg m = .ok (m1, cmd) := by
  obtain ⟨s, _, hs⟩ := updateCommon_returns W fuel msg m h
  exact ⟨_, _, hs⟩

theorem updateCommon_cmd_ne_quit {F : Type} (W : Widgets F) (fuel : Nat) (msg : Msg)
    (m m1 : Model F) (cmd : Cmd) (h : updateCommon W fuel msg m = .ok (m1, cmd)) :
    cmd ≠ .Quit := by
  obtain ⟨s, _, hr⟩ := updateCommon_eq_ok W fuel msg m _ h
  have hc : cmd = (forwardEvent W msg { m with viewport := m.viewport.SetContent s }).2 :=
    congrArg Prod.snd hr
  intro hq
  rw [hq] at hc
  simp only [forwardEvent] at hc
  cases hc

theorem forwardEvent_focus {F : Type} (W : Widgets F) (msg : Msg) (m : Model F)
    (hcomp : ∀ e c, c.focus = true → (W.composerUpdate e c).1.focus = true) :
    (forwardEvent W msg m).1.composer.focus = true := by
  by_cases hrun : m.context.Ai.session.IsRunning = true
  · simp [forwardEvent, hrun, Composer.Focus]
  · simp only [forwardEvent, hrun]
    exact hcomp _ _ rfl

theorem handleEnter_focus {F : Type} (m : Model F) :
    (handleEnter m).1.composer.focus = m.composer.focus := by
  simp only [handleEnter]
  split_ifs <;> rfl

/-- The method `Update` returns a model on every quit key and accept key, on every event while
the welcome text is shown, and on every event whose rendering width is positive,
given enough loop iterations. -/
theorem Update_returns {F : Type} (W : Widgets F) (fuel : Nat) (msg : Msg) (m : Model F)
    (h : (m.context.Ai.session.HasMessages = false ∧ m.context.Ai.session.IsRunning = false) ∨
      (0 < renderWidth msg m ∧
        ∀ msg ∈ m.context.Ai.session.Messages, msg.Text.length + 5 ≤ fuel)) :
    ∃ m1 cmd, Update W fuel msg m = .ok (m1, cmd) := by
  cases msg with
  | KeyMsg key =>
    simp only [Update]
    split_ifs
    · exact ⟨_, _, rfl⟩
    · exact ⟨_, _, rfl⟩
    · exact updateCommon_pair W fuel (.KeyMsg key) m h
  | WindowSizeMsg width height =>
    show ∃ m1 cmd, updateCommon W fuel (.WindowSizeMsg width height) _ = .ok (m1, cmd)
    apply updateCommon_pair
    exact h
  | Notification =>
    show ∃ m1 cmd, updateCommon W fuel .Notification _ = .ok (m1, cmd)
    apply updateCommon_pair
    exact h
  | Other tag => exact updateCommon_pair W fuel (.Other tag) m h

theorem Update_cmd_ne_quit {F : Type} (W : Widgets F) (fuel : Nat) (msg : Msg)
    (m m1 : Model F) (cmd : Cmd) (hmsg : ∀ key, msg ≠ .KeyMsg key)
    (h : Update W fuel msg m = .ok (m1, cmd)) : cmd ≠ .Quit := by
  cases msg with
  | KeyMsg key => exact absurd rfl (hmsg key)
  | WindowSizeMsg width height =>
    simp only [Update] at h
    exact updateCommon_cmd_ne_quit _ _ _ _ _ _ h
  | Notification =>
    simp only [Update] at h
    exact updateCommon_cmd_ne_quit _ _ _ _ _ _ h
  | Other tag =>
    simp only [Update] at h
    exact updateCommon_cmd_ne_quit _ _ _ _ _ _ h

/-- C10, the code at the failing input: the constructed model has an unfocused
composer; `Init` hands back only a command (the focus it sets is on its own copy of
the model), so the first event meets the constructed model; when that event is the
accept key, `Update` returns the model unchanged with the `nil` command (not Quit)
and the composer's focus flag is still false. -/
theorem focus_lost_after_init :
    freshModel.composer.focus = false ∧
      Init idleWidgets freshModel = .Batch [.nil, .nil, .Widget 1, .Widget 0] ∧
      Update idleWidgets 0 enterKey freshModel = .ok (freshModel, .nil) ∧
      Cmd.nil ≠ Cmd.Quit :=
  ⟨rfl, rfl, by rw [Update_enter]; rfl, (fun h => by cases h)⟩

/-- The focus flag in the models `Update` returns, provided the composer widget's
own `Update` keeps a set focus flag: after an event that is neither Quit nor the
accept key the flag is true, and the accept key leaves the flag as it was, so from a
focused composer every event that is not Quit returns a focused composer. `Update`
does return a model whenever the welcome text is shown or the rendering width is
positive (given enough loop iterations). -/
theorem focus_after_update {F : Type} (W : Widgets F) (fuel : Nat) (msg : Msg) (m : Model F)
    (hcomp : ∀ e c, c.focus = true → (W.composerUpdate e c).1.focus = true) :
    (∀ m1 cmd, Update W fuel msg m = .ok (m1, cmd) → cmd ≠ .Quit →
      (msg ≠ enterKey → m1.composer.focus = true) ∧
      (msg = enterKey → m1.composer.focus = m.composer.focus)) ∧
    (((m.context.Ai.session.HasMessages = false ∧ m.context.Ai.session.IsRunning = false) ∨
        (0 < renderWidth msg m ∧
          ∀ msg ∈ m.context.Ai.session.Messages, msg.Text.length + 5 ≤ fuel)) →
      ∃ m1 cmd, Update W fuel msg m = .ok (m1, cmd)) := by
  refine ⟨?_, Update_returns W fuel msg m⟩
  intro m1 cmd hstep hq
  have common : ∀ (m0 : Model F), updateCommon W fuel msg m0 = .ok (m1, cmd) →
      m1.composer.focus = true := by
    intro m0 h0
    obtain ⟨s, _, hr⟩ := updateCommon_eq_ok W fuel msg m0 _ h0
    have := forwardEvent_focus W msg { m0 with viewport := m0.viewport.SetContent s } hcomp
    rw [← hr] at this
    exact this
  cases msg with
  | KeyMsg key =>
    simp only [Update] at hstep
    split_ifs at hstep with h1 h2
    · injection hstep with hstep
      injection hstep with _ hc
      exact absurd hc.symm hq
    · injection hstep with hstep
      have hfocus := handleEnter_focus m
      rw [hstep] at hfocus
      refine ⟨fun hne => absurd (by rw [h2]; rfl) hne, fun _ => hfocus⟩
    · refine ⟨fun _ => common m hstep, fun he => ?_⟩
      exfalso
      apply h2
      injection he
  | WindowSizeMsg width height =>
    exact ⟨fun _ => common _ hstep, fun he => by cases he⟩
  | Notification =>
    exact ⟨fun _ => common _ hstep, fun he => by cases he⟩
  | Other tag =>
    exact ⟨fun _ => common _ hstep, fun he => by cases he⟩

theorem focus_after_update_witness :
    ∃ m1 cmd, Update idleWidgets 0 (.WindowSizeMsg 80 24) freshModel = .ok (m1, cmd) ∧
      cmd ≠ .Quit ∧ m1.composer.focus = true := by
  have h := focus_after_update idleWidgets 0 (.WindowSizeMsg 80 24) freshModel
    (fun _ _ hc => hc)
  obtain ⟨m1, cmd, hstep⟩ := h.2 (Or.inl ⟨rfl, rfl⟩)
  have hq : cmd ≠ .Quit :=
    Update_cmd_ne_quit _ _ _ _ _ _ (by intro key hk; cases hk) hstep
  exact ⟨m1, cmd, hstep, hq, (h.1 m1 cmd hstep hq).1 (by intro he; cases he)⟩


/-! ## The glyphs, short lines and the scenario -/

/-- C16: the type-to-glyph mapping `emoji` is a total function; it returns the robot
glyph for System, the person glyph for User, the robot glyph for Assistant, the
wrench glyph for Tool and `>` for every other message type. -/
theorem emoji_mapping :
    emoji .System = utf8 "🤖" ∧ emoji .User = utf8 "👤" ∧ emoji .Assistant = utf8 "🤖" ∧
      emoji .Tool = utf8 "🔧" ∧ (∀ code : Nat, emoji (.Unknown code) = utf8 ">") ∧
      utf8 "🤖" = [0xF0, 0x9F, 0xA4, 0x96] ∧ utf8 "👤" = [0xF0, 0x9F, 0x91, 0xA4] ∧
      utf8 "🔧" = [0xF0, 0x9F, 0x94, 0xA7] ∧ utf8 ">" = [0x3E] :=
  ⟨rfl, rfl, rfl, rfl, fun _ => rfl, by decide, by decide, by decide, by decide⟩

/-- C17: for every string `s` and every width `w` with `len(s) <= w`, whatever the
iteration bound, `split(s, w)` returns the one-element sequence `[s]`. -/
theorem split_short (fuel : Nat) (s : GoString) (w : Int) (h : len s ≤ w) :
    split fuel s w = .ok [s] := by
  simp only [split, h, if_true]

theorem split_short_witness :
    split 0 (utf8 "") 0 = .ok [utf8 ""] ∧ split 0 (utf8 "hello") 5 = .ok [utf8 "hello"] :=
  ⟨split_short 0 (utf8 "") 0 (by decide), split_short 0 (utf8 "hello") 5 (by decide)⟩

theorem stringsSplit_of_not_mem (s : GoString) (h : newline ∉ s) : stringsSplit s = [s] := by
  obtain ⟨l, ls, h1, h2⟩ := stringsSplit_append_of_not_mem s [] h
  have h3 : stringsSplit ([] : GoString) = [[]] := by rw [stringsSplit]
  rw [h3] at h1
  injection h1 with h4 h5
  subst h4 h5
  simpa using h2

theorem stringsTrim_of_not_mem (s : GoString) (h : newline ∉ s) : stringsTrim s = s := by
  cases s with
  | nil => rfl
  | cons c s =>
    have := stringsTrim_append_of_not_mem (c :: s) [] (List.cons_ne_nil _ _) h
    simpa [trimRight, trimLeft] using this

theorem forall₂_eq_map {α β : Type} (f : α → β) :
    ∀ (l₁ : List α) (l₂ : List β), List.Forall₂ (fun a b => b = f a) l₁ l₂ → l₂ = l₁.map f := by
  intro l₁ l₂ h
  induction h with
  | nil => rfl
  | cons hab _ ih => rw [List.map_cons, hab, ih]

/-- A message whose prefixed text has no newline and fits the width renders as the
prefixed text itself, whatever the iteration bound. -/
theorem renderText_short (fuel : Nat) (width : Int) (msg : Message)
    (hnl : newline ∉ prefixedText msg) (hlen : len (prefixedText msg) ≤ width) :
    renderText fuel width msg = .ok (prefixedText msg) := by
  have h1 : stringsSplit (emoji msg.Type_ ++ utf8 " " ++ msg.Text) = [prefixedText msg] :=
    stringsSplit_of_not_mem _ hnl
  have h2 : split fuel (prefixedText msg) width = .ok [prefixedText msg] := by
    simp only [split, hlen, if_true]
  simp only [renderText, h1, wrapLines, h2, List.nil_append, stringsJoin]

/-- C15: when every prefixed text (glyph, space, text) has no newline and at most
`width` bytes, `renderMessages` returns, whatever the iteration bound, the prefixed
texts in order, each followed by its line end, with one empty line between
consecutive ones; for `[User "hi", Assistant "hello"]` at width 80 that is the person
glyph, a space and `hi`, an empty line, and the robot glyph, a space and `hello`. -/
theorem renderMessages_short_lines {F : Type} (fuel : Nat) (m : Model F)
    (h : ∀ msg ∈ m.context.Ai.session.Messages,
      newline ∉ prefixedText msg ∧ len (prefixedText msg) ≤ m.context.Width) :
    renderMessages fuel m =
        .ok (match m.context.Ai.session.Messages with
          | [] => []
          | msg :: rest =>
            prefixedText msg ++ utf8 "\n" ++
              (rest.map (fun r => utf8 "\n" ++ prefixedText r ++ utf8 "\n")).flatten) ∧
      renderMessages fuel
          (transcriptModel 80 [⟨.User, utf8 "hi"⟩, ⟨.Assistant, utf8 "hello"⟩]) =
        .ok (utf8 "👤 hi\n\n🤖 hello\n") := by
  refine ⟨?_, ?_⟩
  · by_cases hne : m.context.Ai.session.Messages = []
    · rw [renderMessages, hne, renderLoop]
    · obtain ⟨block, blocks, hall, hrun⟩ := renderMessages_ok fuel m
        (fun msg b => b = prefixedText msg) hne
        (by
          intro msg hmsg
          refine ⟨_, renderText_short fuel _ msg (h msg hmsg).1 (h msg hmsg).2, ?_⟩
          exact stringsTrim_of_not_mem _ (h msg hmsg).1)
      have hmap := forall₂_eq_map prefixedText _ _ hall
      rw [hrun]
      rcases hm : m.context.Ai.session.Messages with _ | ⟨msg, rest⟩
      · exact absurd hm hne
      · rw [hm, List.map_cons] at hmap
        injection hmap with h1 h2
        subst h1 h2
        simp only [List.map_map, Function.comp_def]
  · have h0 : ∀ msg ∈ (transcriptModel 80
        [⟨.User, utf8 "hi"⟩, ⟨.Assistant, utf8 "hello"⟩]).context.Ai.session.Messages,
        newline ∉ prefixedText msg ∧ len (prefixedText msg) ≤ 80 := by decide
    have hr : ∀ msg ∈ ([⟨.User, utf8 "hi"⟩, ⟨.Assistant, utf8 "hello"⟩] : List Message),
        renderText fuel 80 msg = .ok (prefixedText msg) := by
      intro msg hmsg
      exact renderText_short fuel 80 msg (h0 msg hmsg).1 (h0 msg hmsg).2
    have hu := hr ⟨.User, utf8 "hi"⟩ (by decide)
    have ha := hr ⟨.Assistant, utf8 "hello"⟩ (by decide)
    have t1 : stringsTrim (prefixedText ⟨.User, utf8 "hi"⟩) = utf8 "👤 hi" := by decide
    have t2 : stringsTrim (prefixedText ⟨.Assistant, utf8 "hello"⟩) = utf8 "🤖 hello" := by
      decide
    show renderLoop fuel 80 0 [⟨.User, utf8 "hi"⟩, ⟨.Assistant, utf8 "hello"⟩] [] = _
    simp only [renderLoop, hu, ha, t1, t2]
    decide

theorem renderMessages_short_lines_witness :
    renderMessages 0 (transcriptModel 80 [⟨.User, utf8 "hi"⟩, ⟨.Assistant, utf8 "hello"⟩]) =
        .ok (match (transcriptModel 80
            [⟨.User, utf8 "hi"⟩, ⟨.Assistant, utf8 "hello"⟩]).context.Ai.session.Messages with
          | [] => []
          | msg :: rest =>
            prefixedText msg ++ utf8 "\n" ++
              (rest.map (fun r => utf8 "\n" ++ prefixedText r ++ utf8 "\n")).flatten) ∧
      renderMessages 0
          (transcriptModel 80 [⟨.User, utf8 "hi"⟩, ⟨.Assistant, utf8 "hello"⟩]) =
        .ok (utf8 "👤 hi\n\n🤖 hello\n") :=
  renderMessages_short_lines 0
    (transcriptModel 80 [⟨.User, utf8 "hi"⟩, ⟨.Assistant, utf8 "hello"⟩]) (by decide)

/-! ## Width zero -/

theorem renderText_zero_width (fuel : Nat) (msg : Message) :
    renderText fuel 0 msg = .outOfFuel := by
  obtain ⟨l, ls, _, hsplit⟩ :=
    stringsSplit_append_of_not_mem (emoji msg.Type_ ++ utf8 " ") msg.Text
      (emoji_space_no_newline msg.Type_)
  have hne : emoji msg.Type_ ++ utf8 " " ++ l ≠ [] := by
    intro h
    have := congrArg List.length h
    have h1 := (emoji_length msg.Type_).1
    simp only [List.length_append, List.length_nil] at this
    omega
  simp only [renderText, hsplit, wrapLines, split_zero_width fuel _ hne]

theorem renderLoop_zero_width (fuel idx : Nat) (msg : Message) (rest : List Message)
    (rendered : GoString) : renderLoop fuel 0 idx (msg :: rest) rendered = .outOfFuel := by
  rw [renderLoop, renderText_zero_width]

/-- At layout width 0 `renderMessages` never returns on a non-empty transcript:
whatever the iteration bound, it is used up. -/
theorem renderMessages_zero_width {F : Type} (fuel : Nat) (m : Model F)
    (hw : m.context.Width = 0) (hne : m.context.Ai.session.Messages ≠ []) :
    renderMessages fuel m = .outOfFuel := by
  rw [renderMessages, hw]
  rcases hm : m.context.Ai.session.Messages with _ | ⟨msg, rest⟩
  · exact absurd hm hne
  · exact renderLoop_zero_width fuel 0 msg rest []

theorem updateCommon_zero_width {F : Type} (W : Widgets F) (fuel : Nat) (msg : Msg)
    (m : Model F) (hw : m.context.Width = 0) (hne : m.context.Ai.session.Messages ≠ []) :
    updateCommon W fuel msg m = .outOfFuel := by
  have hhas : m.context.Ai.session.HasMessages = true := by
    rcases hm : m.context.Ai.session.messages with _ | ⟨msg, rest⟩
    · exact absurd hm hne
    · simp [Session.HasMessages, hm]
  simp only [updateCommon, viewportContent, hhas, renderMessages_zero_width fuel m hw hne]
  simp

/-- C19, the code at the failing input: the model constructed over a session that
holds one message has layout width 0; there `renderMessages` uses up every iteration
bound, and so does `Update` for a notification and for the key `a`: neither returns
a model. -/
theorem update_before_resize_diverges :
    transcriptModel 0 [⟨.Assistant, utf8 "hi"⟩] =
        NewModel idleWidgets
          { session := { running := false, messages := [⟨.Assistant, utf8 "hi"⟩] },
            Input := [] } ∧
      (∀ fuel : Nat,
        renderMessages fuel (transcriptModel 0 [⟨.Assistant, utf8 "hi"⟩]) = .outOfFuel) ∧
      (∀ fuel : Nat,
        Update idleWidgets fuel .Notification (transcriptModel 0 [⟨.Assistant, utf8 "hi"⟩]) =
          .outOfFuel) ∧
      (∀ fuel : Nat,
        Update idleWidgets fuel (.KeyMsg (utf8 "a"))
          (transcriptModel 0 [⟨.Assistant, utf8 "hi"⟩]) = .outOfFuel) := by
  refine ⟨rfl, fun fuel => ?_, fun fuel => ?_, fun fuel => ?_⟩
  · exact renderMessages_zero_width fuel _ rfl (by decide)
  · show updateCommon idleWidgets fuel .Notification _ = .outOfFuel
    exact updateCommon_zero_width idleWidgets fuel .Notification _ rfl (by decide)
  · have hk : ¬ (utf8 "a" = utf8 "ctrl+c" ∨ utf8 "a" = utf8 "esc") := by decide
    have he : ¬ (utf8 "a" = utf8 "enter") := by decide
    simp only [Update, if_neg hk, if_neg he]
    exact updateCommon_zero_width idleWidgets fuel _ _ rfl (by decide)

/-! ## No content is lost -/

theorem deleteNewlines_append (a b : GoString) :
    deleteNewlines (a ++ b) = deleteNewlines a ++ deleteNewlines b := by
  simp [deleteNewlines]

theorem deleteNewlines_cons_newline (s : GoString) :
    deleteNewlines (newline :: s) = deleteNewlines s := by
  simp [deleteNewlines]

theorem deleteNewlines_cons_of_ne (c : UInt8) (s : GoString) (hc : c ≠ newline) :
    deleteNewlines (c :: s) = c :: deleteNewlines s := by
  simp [deleteNewlines, hc]

theorem deleteNewlines_of_not_mem (s : GoString) (h : newline ∉ s) : deleteNewlines s = s := by
  induction s with
  | nil => rfl
  | cons c s ih =>
    have hc : c ≠ newline := fun hc => h (by simp [hc])
    rw [deleteNewlines_cons_of_ne c s hc, ih (fun hs => h (List.mem_cons_of_mem _ hs))]

theorem deleteNewlines_replicate (k : Nat) : deleteNewlines (List.replicate k newline) = [] := by
  induction k with
  | zero => rfl
  | succ k ih => rw [List.replicate_succ, deleteNewlines_cons_newline, ih]

theorem deleteNewlines_idem (s : GoString) : deleteNewlines (deleteNewlines s) = deleteNewlines s := by
  simp [deleteNewlines]

/-- Concatenating the lines of a string gives the string without its newlines. -/
theorem stringsSplit_flatten (s : GoString) : (stringsSplit s).flatten = deleteNewlines s := by
  induction s with
  | nil => rfl
  | cons c s ih =>
    by_cases hc : c = newline
    · subst hc
      rw [stringsSplit_cons_newline, deleteNewlines_cons_newline, List.flatten_cons,
        List.nil_append, ih]
    · obtain ⟨l, ls, h1, h2⟩ := stringsSplit_cons_of_ne c s hc
      rw [h2, deleteNewlines_cons_of_ne c s hc, ← ih, h1]
      simp

theorem deleteNewlines_stringsJoin (chunks : List GoString) :
    deleteNewlines (stringsJoin chunks) = deleteNewlines chunks.flatten := by
  induction chunks with
  | nil => rfl
  | cons c cs ih =>
    cases cs with
    | nil => simp [stringsJoin]
    | cons d cs =>
      rw [stringsJoin_cons_cons, deleteNewlines_append, deleteNewlines_cons_newline, ih]
      simp only [List.flatten_cons, deleteNewlines_append]

theorem deleteNewlines_stringsTrim (s : GoString) :
    deleteNewlines (stringsTrim s) = deleteNewlines s := by
  obtain ⟨k, hk⟩ := trimLeft_spec s
  obtain ⟨j, hj⟩ := trimRight_spec (trimLeft s)
  have h1 : deleteNewlines s = deleteNewlines (trimLeft s) := by
    conv_lhs => rw [hk]
    rw [deleteNewlines_append, deleteNewlines_replicate, List.nil_append]
  have h2 : deleteNewlines (trimLeft s) = deleteNewlines (trimRight (trimLeft s)) := by
    conv_lhs => rw [hj]
    rw [deleteNewlines_append, deleteNewlines_replicate, List.append_nil]
  rw [stringsTrim, h1, h2]

/-- At a positive width the chunks of every line concatenate to the line. -/
theorem wrapped_flatten (w : Nat) (hw : 0 < w) (fuel : Nat) :
    ∀ (lines : List GoString) (wrapped : List (List GoString)),
      List.Forall₂ (fun line cs => split fuel line (w : Int) = .ok cs) lines wrapped →
      (∀ l ∈ lines, l.length ≤ fuel) → wrapped.flatten.flatten = lines.flatten := by
  intro lines wrapped h
  induction h with
  | nil => intro _; rfl
  | @cons line cs lines wrapped hsplit _ ih =>
    intro hlen
    have hcs : cs.flatten = line := by
      rcases split_ok w hw fuel line (hlen line (List.mem_cons_self _ _)) with
        ⟨_, h1⟩ | ⟨_, ds, last, h1, hcat, _⟩
      · rw [h1] at hsplit
        injection hsplit with hsplit
        rw [← hsplit]
        simp
      · rw [h1] at hsplit
        injection hsplit with hsplit
        rw [← hsplit]
        simpa using hcat
    rw [List.flatten_cons, List.flatten_append, hcs, List.flatten_cons,
      ih (fun l hl => hlen l (List.mem_cons_of_mem _ hl))]

theorem forall₂_map_eq {α β γ : Type} (f : α → γ) (g : β → γ) :
    ∀ (l₁ : List α) (l₂ : List β), List.Forall₂ (fun a b => g b = f a) l₁ l₂ →
      l₂.map g = l₁.map f := by
  intro l₁ l₂ h
  induction h with
  | nil => rfl
  | cons hab _ ih => rw [List.map_cons, List.map_cons, hab, ih]

theorem deleteNewlines_blocks (blocks : List GoString) :
    deleteNewlines (blocks.map (fun b => utf8 "\n" ++ b ++ utf8 "\n")).flatten =
      (blocks.map deleteNewlines).flatten := by
  induction blocks with
  | nil => rfl
  | cons b bs ih =>
    have h1 : deleteNewlines [newline] = [] := by decide
    rw [List.map_cons, List.flatten_cons, deleteNewlines_append, ih, List.map_cons,
      List.flatten_cons, deleteNewlines_append, deleteNewlines_append, utf8_newline, h1,
      List.nil_append, List.append_nil]

/-- C20: at a width > 0, for every sequence of messages and given enough loop
iterations, `renderMessages` returns, and deleting every newline from its output
gives the concatenation, in message order, of each message's glyph, a space and the
message text with its newlines deleted. -/
theorem renderMessages_keeps_content {F : Type} (fuel : Nat) (m : Model F)
    (hw : 0 < m.context.Width)
    (hfuel : ∀ msg ∈ m.context.Ai.session.Messages, msg.Text.length + 5 ≤ fuel) :
    ∃ out, renderMessages fuel m = .ok out ∧
      deleteNewlines out =
        (m.context.Ai.session.Messages.map
          (fun msg => emoji msg.Type_ ++ utf8 " " ++ deleteNewlines msg.Text)).flatten := by
  obtain ⟨n, hn⟩ := Int.eq_ofNat_of_zero_le (le_of_lt hw)
  have hnpos : 0 < n := by rw [hn] at hw; exact_mod_cast hw
  by_cases hne : m.context.Ai.session.Messages = []
  · refine ⟨[], ?_, ?_⟩
    · rw [renderMessages, hne, renderLoop]
    · rw [hne]; rfl
  · obtain ⟨block, blocks, hall, hrun⟩ := renderMessages_ok fuel m
      (fun msg b => deleteNewlines b = emoji msg.Type_ ++ utf8 " " ++ deleteNewlines msg.Text)
      hne
      (by
        intro msg hmsg
        rw [hn]
        obtain ⟨wrapped, hwr, hrun, _, _⟩ := renderText_ok n hnpos fuel msg (hfuel msg hmsg)
        refine ⟨_, hrun, ?_⟩
        have hlines : ∀ l ∈ stringsSplit (emoji msg.Type_ ++ utf8 " " ++ msg.Text),
            l.length ≤ fuel := by
          intro l hl
          have h1 := stringsSplit_length_le _ l hl
          have h2 := (emoji_length msg.Type_).2
          have h3 : (utf8 " ").length = 1 := by decide
          have h4 := hfuel msg hmsg
          simp only [List.length_append, h3] at h1
          omega
        show deleteNewlines (stringsTrim (stringsJoin wrapped.flatten)) =
          emoji msg.Type_ ++ utf8 " " ++ deleteNewlines msg.Text
        rw [deleteNewlines_stringsTrim, deleteNewlines_stringsJoin,
          wrapped_flatten n hnpos fuel _ _ hwr hlines, stringsSplit_flatten,
          deleteNewlines_idem, deleteNewlines_append,
          deleteNewlines_of_not_mem _ (emoji_space_no_newline msg.Type_)])
    have hmap := forall₂_map_eq
      (fun msg : Message => emoji msg.Type_ ++ utf8 " " ++ deleteNewlines msg.Text)
      deleteNewlines _ _ hall
    refine ⟨_, hrun, ?_⟩
    rw [← hmap, deleteNewlines_append, deleteNewlines_append, deleteNewlines_blocks,
      utf8_newline]
    have : deleteNewlines [newline] = [] := by decide
    rw [this]
    simp

theorem renderMessages_keeps_content_witness :
    ∃ out,
      renderMessages 12
          (transcriptModel 3 [⟨.User, utf8 "hi\nyou"⟩, ⟨.Assistant, utf8 "hello"⟩]) = .ok out ∧
      deleteNewlines out =
        ((transcriptModel 3
            [⟨.User, utf8 "hi\nyou"⟩, ⟨.Assistant, utf8 "hello"⟩]).context.Ai.session.Messages.map
          (fun msg => emoji msg.Type_ ++ utf8 " " ++ deleteNewlines msg.Text)).flatten :=
  renderMessages_keeps_content 12
    (transcriptModel 3 [⟨.User, utf8 "hi\nyou"⟩, ⟨.Assistant, utf8 "hello"⟩])
    (by decide) (by decide)

/-! ## The cycle of `Update` -/

/-- The three ways `Update` returns: a quit key, the accept key through
`handleEnter`, and every other event through the common part. -/
theorem Update_ok_cases {F : Type} (W : Widgets F) (fuel : Nat) (msg : Msg)
    (m m1 : Model F) (cmd : Cmd) (h : Update W fuel msg m = .ok (m1, cmd)) :
    ((∃ key, msg = .KeyMsg key) ∧ msg ≠ enterKey ∧ cmd = .Quit ∧ m1 = m) ∨
    (msg = enterKey ∧ (m1, cmd) = handleEnter m) ∨
    (msg ≠ enterKey ∧ cmd ≠ .Quit ∧
      ∃ s, viewportContent W fuel (switchEffect W msg m) = .ok s ∧
        (m1, cmd) = forwardEvent W msg
          { switchEffect W msg m with
            viewport := (switchEffect W msg m).viewport.SetContent s }) := by
  have common : ∀ (m0 : Model F), updateCommon W fuel msg m0 = .ok (m1, cmd) →
      cmd ≠ .Quit ∧ ∃ s, viewportContent W fuel m0 = .ok s ∧
        (m1, cmd) = forwardEvent W msg { m0 with viewport := m0.viewport.SetContent s } := by
    intro m0 h0
    obtain ⟨s, hs, hr⟩ := updateCommon_eq_ok W fuel msg m0 _ h0
    exact ⟨updateCommon_cmd_ne_quit W fuel msg m0 m1 cmd h0, s, hs, hr⟩
  cases msg with
  | KeyMsg key =>
    simp only [Update] at h
    split_ifs at h with h1 h2
    · left
      injection h with h
      injection h with hm hc
      refine ⟨⟨key, rfl⟩, ?_, hc.symm, hm.symm⟩
      intro he
      injection he with he
      rw [he] at h1
      exact enter_ne_quit_keys h1
    · right; left
      injection h with h
      exact ⟨by rw [h2]; rfl, h.symm⟩
    · right; right
      refine ⟨?_, common m h⟩
      intro he
      injection he with he
      exact h2 he
  | WindowSizeMsg width height =>
    right; right
    exact ⟨(fun he => by cases he), common _ h⟩
  | Notification =>
    right; right
    exact ⟨(fun he => by cases he), common _ h⟩
  | Other tag =>
    right; right
    exact ⟨(fun he => by cases he), common _ h⟩

theorem setContent_lines (v : Viewport) (s : GoString) :
    (v.SetContent s).lines = contentLines s := by
  simp only [Viewport.SetContent, contentLines]
  split_ifs <;> rfl

theorem setContent_size (v : Viewport) (s : GoString) :
    (v.SetContent s).Width = v.Width ∧ (v.SetContent s).Height = v.Height := by
  simp only [Viewport.SetContent]
  split_ifs <;> exact ⟨rfl, rfl⟩

theorem switchEffect_ai {F : Type} (W : Widgets F) (msg : Msg) (m : Model F) :
    (switchEffect W msg m).context.Ai = m.context.Ai := by
  cases msg <;> rfl

theorem switchEffect_value {F : Type} (W : Widgets F) (msg : Msg) (m : Model F) :
    (switchEffect W msg m).composer.value = m.composer.value := by
  cases msg <;> rfl

theorem handleEnter_lines {F : Type} (m : Model F) :
    (handleEnter m).1.viewport.lines = m.viewport.lines := by
  simp only [handleEnter]
  split_ifs <;> rfl

theorem handleEnter_value_running {F : Type} (m : Model F)
    (hrun : m.context.Ai.session.IsRunning = true) : handleEnter m = (m, .nil) := by
  simp only [handleEnter, hrun, if_true]

theorem forwardEvent_composer_running {F : Type} (W : Widgets F) (msg : Msg) (m : Model F)
    (hrun : m.context.Ai.session.IsRunning = true) :
    (forwardEvent W msg m).1.composer = m.composer.Focus := by
  simp [forwardEvent, hrun]

theorem forwardEvent_composer_idle {F : Type} (W : Widgets F) (msg : Msg) (m : Model F)
    (hrun : ¬ m.context.Ai.session.IsRunning = true) :
    (forwardEvent W msg m).1.composer = (W.composerUpdate msg m.composer.Focus).1 := by
  simp [forwardEvent, hrun]

/-- C11, as stated, fails: when the accept key is the first event after
construction, over a session without messages that is not running, `Update` returns
with the `nil` command (not Quit) a model whose viewport holds no content at all,
which is not the welcome text. -/
theorem welcome_not_set_by_first_enter :
    Update idleWidgets 0 enterKey freshModel = .ok (freshModel, .nil) ∧
      Cmd.nil ≠ Cmd.Quit ∧
      freshModel.context.Ai.session.HasMessages = false ∧
      freshModel.context.Ai.session.IsRunning = false ∧
      freshModel.viewport.lines = [] ∧
      contentLines (welcomeText idleWidgets) = [utf8 "Welcome to the AI CLI!"] ∧
      freshModel.viewport.lines ≠ contentLines (welcomeText idleWidgets) :=
  ⟨by rw [Update_enter]; rfl, (fun h => by cases h), rfl, rfl, rfl, by decide, by decide⟩

/-- C11, amended: provided the viewport widget's own `Update` keeps the content
lines, in every model `Update` returns with a command other than Quit for an event
that is not the accept key, the viewport content is the welcome text when the
session has no messages and is not running, and otherwise is the output of
`renderMessages` for the session's messages at the layout width of the returned
model; for the accept key the viewport content is what it was before the event.
`Update` does return a model whenever the welcome text is shown or the rendering
width is positive (given enough loop iterations). -/
theorem viewport_content_after_update {F : Type} (W : Widgets F) (fuel : Nat) (msg : Msg)
    (m : Model F)
    (hvp : ∀ e v, (W.viewportUpdate e v).1.lines = v.lines) :
    (∀ m1 cmd, Update W fuel msg m = .ok (m1, cmd) → cmd ≠ .Quit →
      (msg ≠ enterKey →
        ((m1.context.Ai.session.HasMessages = false ∧
            m1.context.Ai.session.IsRunning = false) →
          m1.viewport.lines = contentLines (welcomeText W)) ∧
        (¬ (m1.context.Ai.session.HasMessages = false ∧
            m1.context.Ai.session.IsRunning = false) →
          ∃ out, renderMessages fuel m1 = .ok out ∧ m1.viewport.lines = contentLines out)) ∧
      (msg = enterKey → m1.viewport.lines = m.viewport.lines)) ∧
    (((m.context.Ai.session.HasMessages = false ∧ m.context.Ai.session.IsRunning = false) ∨
        (0 < renderWidth msg m ∧
          ∀ msg ∈ m.context.Ai.session.Messages, msg.Text.length + 5 ≤ fuel)) →
      ∃ m1 cmd, Update W fuel msg m = .ok (m1, cmd)) := by
  refine ⟨?_, Update_returns W fuel msg m⟩
  intro m1 cmd hstep hq
  rcases Update_ok_cases W fuel msg m m1 cmd hstep with
    ⟨_, _, hc, _⟩ | ⟨he, hr⟩ | ⟨hne, _, s, hs, hr⟩
  · exact absurd hc hq
  · refine ⟨fun hne => absurd he hne, fun _ => ?_⟩
    have := handleEnter_lines m
    rw [← hr] at this
    exact this
  · refine ⟨fun _ => ?_, fun he => absurd he hne⟩
    have hm1 : m1 = (forwardEvent W msg
        { switchEffect W msg m with
          viewport := (switchEffect W msg m).viewport.SetContent s }).1 :=
      congrArg Prod.fst hr
    have hctx : m1.context = (switchEffect W msg m).context := by rw [hm1]; rfl
    have hlines : m1.viewport.lines = contentLines s := by
      rw [hm1]
      show (W.viewportUpdate msg ((switchEffect W msg m).viewport.SetContent s)).1.lines = _
      rw [hvp, setContent_lines]
    have hrender : renderMessages fuel m1 = renderMessages fuel (switchEffect W msg m) := by
      simp only [renderMessages, hctx]
    rw [hctx]
    constructor
    · intro hidle
      have hs1 : viewportContent W fuel (switchEffect W msg m) = .ok (welcomeText W) := by
        simp [viewportContent, hidle.1, hidle.2, welcomeText]
      rw [hs1] at hs
      injection hs with hs
      rw [hlines, hs]
    · intro hidle
      refine ⟨s, ?_, hlines⟩
      rw [hrender, ← hs]
      have : ¬ ((!(switchEffect W msg m).context.Ai.session.HasMessages &&
          !(switchEffect W msg m).context.Ai.session.IsRunning) = true) := by
        intro hb
        apply hidle
        simpa using hb
      simp only [viewportContent, this]
      simp

theorem viewport_content_after_update_witness :
    ∃ m1 cmd, Update idleWidgets 0 (.WindowSizeMsg 80 24) freshModel = .ok (m1, cmd) ∧
      cmd ≠ .Quit ∧ m1.viewport.lines = contentLines (welcomeText idleWidgets) := by
  have h := viewport_content_after_update idleWidgets 0 (.WindowSizeMsg 80 24) freshModel
    (fun _ _ => rfl)
  obtain ⟨m1, cmd, hstep⟩ := h.2 (Or.inl ⟨rfl, rfl⟩)
  have hq : cmd ≠ .Quit :=
    Update_cmd_ne_quit _ _ _ _ _ _ (by intro key hk; cases hk) hstep
  have hctx : m1.context.Ai = freshModel.context.Ai := by
    rcases Update_ok_cases _ _ _ _ _ _ hstep with ⟨_, _, hc, _⟩ | ⟨he, _⟩ | ⟨_, _, s, _, hr⟩
    · exact absurd hc hq
    · cases he
    · have hm1 : m1 = _ := congrArg Prod.fst hr
      rw [hm1]
      rfl
  refine ⟨m1, cmd, hstep, hq, ?_⟩
  apply ((h.1 m1 cmd hstep hq).1 (by intro he; cases he)).1
  rw [hctx]
  exact ⟨rfl, rfl⟩

theorem forwardEvent_value_running {F : Type} (W : Widgets F) (msg : Msg) (m : Model F)
    (hrun : m.context.Ai.session.IsRunning = true) :
    (forwardEvent W msg m).1.composer.value = m.composer.value := by
  rw [forwardEvent_composer_running W msg m hrun]
  rfl

theorem forwardEvent_composer_width {F : Type} (W : Widgets F) (msg : Msg) (m : Model F)
    (hcomp : ∀ e c, (W.composerUpdate e c).1.width = c.width) :
    (forwardEvent W msg m).1.composer.width = m.composer.width := by
  by_cases hrun : m.context.Ai.session.IsRunning = true
  · rw [forwardEvent_composer_running W msg m hrun]; rfl
  · rw [forwardEvent_composer_idle W msg m hrun, hcomp]; rfl

/-- C12: while the session is running, in every model `Update` returns, for any
event, the composer value is the value before the event; `Update` does return a
model whenever the rendering width is positive (given enough loop iterations). -/
theorem composer_value_kept_while_running {F : Type} (W : Widgets F) (fuel : Nat)
    (msg : Msg) (m : Model F) (hrun : m.context.Ai.session.IsRunning = true) :
    (∀ m1 cmd, Update W fuel msg m = .ok (m1, cmd) → m1.composer.Value = m.composer.Value) ∧
    ((0 < renderWidth msg m ∧
        ∀ msg ∈ m.context.Ai.session.Messages, msg.Text.length + 5 ≤ fuel) →
      ∃ m1 cmd, Update W fuel msg m = .ok (m1, cmd)) := by
  refine ⟨?_, fun h => Update_returns W fuel msg m (Or.inr h)⟩
  intro m1 cmd hstep
  rcases Update_ok_cases W fuel msg m m1 cmd hstep with
    ⟨_, _, _, hm⟩ | ⟨_, hr⟩ | ⟨_, _, s, _, hr⟩
  · rw [hm]
  · rw [handleEnter_value_running m hrun] at hr
    injection hr with hm _
    rw [hm]
  · have hm1 : m1 = _ := congrArg Prod.fst hr
    have hrun1 : (switchEffect W msg m).context.Ai.session.IsRunning = true := by
      rw [switchEffect_ai]; exact hrun
    rw [hm1]
    refine (forwardEvent_value_running W msg _ ?_).trans (switchEffect_value W msg m)
    exact hrun1

theorem composer_value_kept_while_running_witness :
    ∃ m1 cmd, Update typingWidgets 12 (.KeyMsg (utf8 "x")) streamingModel = .ok (m1, cmd) ∧
      m1.composer.Value = utf8 "draft" := by
  have h := composer_value_kept_while_running typingWidgets 12 (.KeyMsg (utf8 "x"))
    streamingModel rfl
  obtain ⟨m1, cmd, hstep⟩ := h.2 ⟨by decide, by decide⟩
  exact ⟨m1, cmd, hstep, h.1 m1 cmd hstep⟩

theorem forwardEvent_after_resize {F : Type} (W : Widgets F) (fuel : Nat)
    (width height : Int) (m m1 : Model F) (cmd : Cmd)
    (h : Update W fuel (.WindowSizeMsg width height) m = .ok (m1, cmd)) :
    ∃ s, m1 = (forwardEvent W (.WindowSizeMsg width height)
      { resized W width height m with
        viewport := (resized W width height m).viewport.SetContent s }).1 := by
  rcases Update_ok_cases W fuel _ m m1 cmd h with ⟨⟨key, hk⟩, _⟩ | ⟨he, _⟩ | ⟨_, _, s, _, hr⟩
  · cases hk
  · cases he
  · exact ⟨s, congrArg Prod.fst hr⟩

theorem wrapInt_of_range (x : Int) (h1 : -(2 ^ 63) ≤ x) (h2 : x < 2 ^ 63) : wrapInt x = x := by
  unfold wrapInt
  norm_num at h1 h2 ⊢
  omega

theorem lipglossHeight_pos (s : GoString) : 1 ≤ lipglossHeight s := by
  unfold lipglossHeight
  omega

/-- The Go subtraction `h - composerHeight - footerHeight` is the mathematical one
whenever `h` is an `int` and the result is not below the smallest `int`. -/
theorem intSub_height (h fh : Int) (hfh : 1 ≤ fh) (h1 : h < 2 ^ 63)
    (h2 : -(2 ^ 63) ≤ h - composerHeight - fh) :
    intSub (intSub h composerHeight) fh = h - composerHeight - fh := by
  have hc : composerHeight = 2 := rfl
  rw [hc] at h2 ⊢
  norm_num at h1 h2
  have e1 : intSub h 2 = h - 2 := wrapInt_of_range _ (by norm_num; omega) (by norm_num; omega)
  rw [e1]
  exact wrapInt_of_range _ (by norm_num; omega) (by norm_num; omega)

/-- What `SetWidth(w)` leaves as width on a composer without prompt and line numbers:
`w` less the frame of the current style, for `w` above the frame and within
`MaxWidth`. -/
theorem setWidth_plain (c : Composer) (w : Int) (hp : c.Prompt = utf8 "")
    (hl : c.ShowLineNumbers = false) (hmax : 0 < c.MaxWidth)
    (h1 : c.style.horizontalFrame < w) (h2 : w ≤ c.MaxWidth) :
    (c.SetWidth w).width = w - c.style.horizontalFrame := by
  have hpw : stringWidth (utf8 "") = 0 := by decide
  simp only [Composer.SetWidth, hp, hl, hpw]
  have e1 : max w (c.style.horizontalFrame + 1) = w := by
    apply max_eq_left
    omega
  have e2 : min w c.MaxWidth = w := min_eq_left h2
  simp [e1, e2, hmax]

/-- The dimensions after a resize event, when the widgets keep their own sizes. -/
theorem resize_dims {F : Type} (W : Widgets F) (fuel : Nat) (width height : Int)
    (m m1 : Model F) (cmd : Cmd)
    (hvp : ∀ e v, (W.viewportUpdate e v).1.Width = v.Width ∧
      (W.viewportUpdate e v).1.Height = v.Height)
    (hcomp : ∀ e c, (W.composerUpdate e c).1.width = c.width)
    (h : Update W fuel (.WindowSizeMsg width height) m = .ok (m1, cmd)) :
    m1.context = { m.context with Width := width, Height := height } ∧
      m1.composer.width = (m.composer.SetWidth width).width ∧ m1.viewport.Width = width ∧
      m1.viewport.Height = intSub (intSub height composerHeight)
        (lipglossHeight (W.footerView { m.context with Width := width, Height := height }
          m.footer)) := by
  obtain ⟨s, hm1⟩ := forwardEvent_after_resize W fuel width height m m1 cmd h
  have hsize := setContent_size (resized W width height m).viewport s
  refine ⟨by rw [hm1]; rfl, ?_, ?_, ?_⟩
  · rw [hm1]
    exact (forwardEvent_composer_width W _ _ hcomp).trans rfl
  · rw [hm1]
    show (W.viewportUpdate _ ((resized W width height m).viewport.SetContent s)).1.Width = _
    rw [(hvp _ _).1, hsize.1]
    rfl
  · rw [hm1]
    show (W.viewportUpdate _ ((resized W width height m).viewport.SetContent s)).1.Height = _
    rw [(hvp _ _).2, hsize.2]
    rfl

/-- C13, as stated, fails at three kinds of input. With a focused composer a resize
to width 80 leaves the composer width at 78, the two columns of the rounded border
being taken off. At height `-2^63` the Go subtraction wraps around and the viewport
height is `2^63 - 3`, not `h - 2 - 1`. And for a resize to width 0 over a session
that holds a message `Update` never returns, whatever the iteration bound. -/
theorem resize_dimensions_differ :
    ((typedModel false (utf8 "hi")).composer.focus = true ∧
      ∃ m1 cmd, Update idleWidgets 0 (.WindowSizeMsg 80 24) (typedModel false (utf8 "hi")) =
          .ok (m1, cmd) ∧ m1.composer.width = 78) ∧
    (∃ m1 cmd, Update idleWidgets 0 (.WindowSizeMsg 80 (-9223372036854775808)) freshModel =
        .ok (m1, cmd) ∧ m1.viewport.Height = 9223372036854775805 ∧
      (-9223372036854775808 : Int) - composerHeight -
        lipglossHeight (idleWidgets.footerView freshModel.context freshModel.footer) =
          -9223372036854775811) ∧
    (∀ fuel : Nat,
      Update idleWidgets fuel (.WindowSizeMsg 0 24)
        (transcriptModel 80 [⟨.Assistant, utf8 "hi"⟩]) = .outOfFuel) := by
  refine ⟨⟨rfl, ?_⟩, ?_, fun fuel => ?_⟩
  · obtain ⟨m1, cmd, hstep⟩ := Update_returns idleWidgets 0 (.WindowSizeMsg 80 24)
      (typedModel false (utf8 "hi")) (Or.inl ⟨rfl, rfl⟩)
    obtain ⟨_, hc, _⟩ := resize_dims idleWidgets 0 80 24 _ m1 cmd
      (fun _ _ => ⟨rfl, rfl⟩) (fun _ _ => rfl) hstep
    refine ⟨m1, cmd, hstep, ?_⟩
    rw [hc]
    decide
  · obtain ⟨m1, cmd, hstep⟩ := Update_returns idleWidgets 0
      (.WindowSizeMsg 80 (-9223372036854775808)) freshModel (Or.inl ⟨rfl, rfl⟩)
    obtain ⟨_, _, _, hh⟩ := resize_dims idleWidgets 0 80 (-9223372036854775808) _ m1 cmd
      (fun _ _ => ⟨rfl, rfl⟩) (fun _ _ => rfl) hstep
    refine ⟨m1, cmd, hstep, ?_, by decide⟩
    rw [hh]
    decide
  · show updateCommon idleWidgets fuel _
      (resized idleWidgets 0 24 (transcriptModel 80 [⟨.Assistant, utf8 "hi"⟩])) = .outOfFuel
    exact updateCommon_zero_width idleWidgets fuel _ _ rfl (by decide)

/-- C13, amended: provided the viewport and composer widgets' own `Update` keep
their sizes, in every model `Update` returns for a resize event carrying width `w`
and height `h` the layout context has width `w` and height `h`, the viewport width
is `w`, the viewport height is `h - composerHeight -` the height of the footer as
rendered in the resized context, computed in Go `int` arithmetic (the mathematical
value whenever that is no smaller than the smallest `int`), with
`composerHeight = 2`, and the composer width is the one `SetWidth(w)` computes: on a
composer without prompt and line numbers, `w` less the horizontal frame of the style
in use, for `w` above that frame and within `MaxWidth`. `Update` does return a model
whenever the welcome text is shown or `w` is positive (given enough loop
iterations). -/
theorem resize_sets_dimensions {F : Type} (W : Widgets F) (fuel : Nat) (w h : Int)
    (m : Model F)
    (hvp : ∀ e v, (W.viewportUpdate e v).1.Width = v.Width ∧
      (W.viewportUpdate e v).1.Height = v.Height)
    (hcomp : ∀ e c, (W.composerUpdate e c).1.width = c.width) :
    (∀ m1 cmd, Update W fuel (.WindowSizeMsg w h) m = .ok (m1, cmd) →
      m1.context.Width = w ∧ m1.context.Height = h ∧ m1.viewport.Width = w ∧
      m1.viewport.Height = intSub (intSub h composerHeight)
        (lipglossHeight (W.footerView { m.context with Width := w, Height := h } m.footer)) ∧
      (h < 2 ^ 63 →
        -(2 ^ 63) ≤ h - composerHeight -
          lipglossHeight (W.footerView { m.context with Width := w, Height := h } m.footer) →
        m1.viewport.Height = h - composerHeight -
          lipglossHeight (W.footerView { m.context with Width := w, Height := h } m.footer)) ∧
      composerHeight = 2 ∧
      m1.composer.width = (m.composer.SetWidth w).width ∧
      (m.composer.Prompt = utf8 "" → m.composer.ShowLineNumbers = false →
        0 < m.composer.MaxWidth → m.composer.style.horizontalFrame < w →
        w ≤ m.composer.MaxWidth →
        m1.composer.width = w - m.composer.style.horizontalFrame)) ∧
    (((m.context.Ai.session.HasMessages = false ∧ m.context.Ai.session.IsRunning = false) ∨
        (0 < w ∧ ∀ msg ∈ m.context.Ai.session.Messages, msg.Text.length + 5 ≤ fuel)) →
      ∃ m1 cmd, Update W fuel (.WindowSizeMsg w h) m = .ok (m1, cmd)) := by
  refine ⟨?_, Update_returns W fuel (.WindowSizeMsg w h) m⟩
  intro m1 cmd hstep
  obtain ⟨hctx, hc, hv1, hv2⟩ := resize_dims W fuel w h m m1 cmd hvp hcomp hstep
  refine ⟨by rw [hctx], by rw [hctx], hv1, hv2, ?_, rfl, hc, ?_⟩
  · intro h1 h2
    rw [hv2]
    exact intSub_height h _ (lipglossHeight_pos _) h1 h2
  · intro hp hl hmax h1 h2
    rw [hc]
    exact setWidth_plain m.composer w hp hl hmax h1 h2

theorem resize_sets_dimensions_witness :
    ∃ m1 cmd, Update idleWidgets 0 (.WindowSizeMsg 80 24) (typedModel false (utf8 "hi")) =
        .ok (m1, cmd) ∧
      m1.context.Width = 80 ∧ m1.context.Height = 24 ∧ m1.viewport.Width = 80 ∧
      m1.viewport.Height = 21 ∧ m1.composer.width = 78 := by
  have h := resize_sets_dimensions idleWidgets 0 80 24 (typedModel false (utf8 "hi"))
    (fun _ _ => ⟨rfl, rfl⟩) (fun _ _ => rfl)
  obtain ⟨m1, cmd, hstep⟩ := h.2 (Or.inl ⟨rfl, rfl⟩)
  obtain ⟨h1, h2, h3, _, h5, _, _, h8⟩ := h.1 m1 cmd hstep
  refine ⟨m1, cmd, hstep, h1, h2, h3, ?_, ?_⟩
  · rw [h5 (by decide) (by decide)]
    decide
  · rw [h8 (by decide) rfl (by decide) (by decide) (by decide)]
    decide

/-- C18, the code at the failing input: the constructed model has an unfocused
composer (the focus `Init` sets is lost); the first resize event to 80 by 24 calls
`SetWidth(80)` before the composer is focused and leaves the composer width at 80;
the same event applied again meets the focused composer with its rounded border and
leaves the composer width at 78. The other dimensions are the same both times. -/
theorem resize_twice_changes_composer_width :
    freshModel.composer.focus = false ∧
      ∃ m1 c1 m2 c2,
        Update idleWidgets 0 (.WindowSizeMsg 80 24) freshModel = .ok (m1, c1) ∧
        Update idleWidgets 0 (.WindowSizeMsg 80 24) m1 = .ok (m2, c2) ∧
        m1.composer.focus = true ∧
        m1.composer.width = 80 ∧ m2.composer.width = 78 ∧
        m1.context.Width = 80 ∧ m2.context.Width = 80 ∧
        m1.context.Height = 24 ∧ m2.context.Height = 24 ∧
        m1.viewport.Width = 80 ∧ m2.viewport.Width = 80 ∧
        m1.viewport.Height = 21 ∧ m2.viewport.Height = 21 := by
  refine ⟨rfl, ?_⟩
  obtain ⟨m1, c1, h1⟩ := Update_returns idleWidgets 0 (.WindowSizeMsg 80 24) freshModel
    (Or.inl ⟨rfl, rfl⟩)
  obtain ⟨s, hm1⟩ := forwardEvent_after_resize idleWidgets 0 80 24 freshModel m1 c1 h1
  have hcomposer : m1.composer = (freshModel.composer.SetWidth 80).Focus := by
    rw [hm1]; rfl
  have hfooter : m1.footer = () := rfl
  obtain ⟨hctx1, hc1, hv1, hh1⟩ := resize_dims idleWidgets 0 80 24 freshModel m1 c1
    (fun _ _ => ⟨rfl, rfl⟩) (fun _ _ => rfl) h1
  have hai : m1.context.Ai = freshModel.context.Ai := by rw [hctx1]
  obtain ⟨m2, c2, h2⟩ := Update_returns idleWidgets 0 (.WindowSizeMsg 80 24) m1
    (Or.inl (by rw [hai]; exact ⟨rfl, rfl⟩))
  obtain ⟨hctx2, hc2, hv2, hh2⟩ := resize_dims idleWidgets 0 80 24 m1 m2 c2
    (fun _ _ => ⟨rfl, rfl⟩) (fun _ _ => rfl) h2
  refine ⟨m1, c1, m2, c2, h1, h2, ?_, ?_, ?_, by rw [hctx1], by rw [hctx2],
    by rw [hctx1], by rw [hctx2], hv1, hv2, ?_, ?_⟩
  · rw [hcomposer]; rfl
  · rw [hc1]; decide
  · rw [hc2, hcomposer]; decide
  · rw [hh1]; decide
  · rw [hh2]
    show intSub (intSub 24 composerHeight) (lipglossHeight (utf8 "ai-cli")) = 21
    decide

/-- C14, the code at the failing input: the viewport is one line high, holds the two
lines of the previous transcript and is at their bottom (offset 1); the session
holds the message `a`, `b`, `c`. `Update` for a notification returns a model whose
viewport holds the four lines of the new transcript, whose bottom is offset 3, while
the scroll offset is still 1; the session is unchanged. -/
theorem notification_scrolls_to_old_bottom :
    streamingModel.viewport.YOffset = streamingModel.viewport.maxYOffset ∧
      ∃ m1 cmd, Update idleWidgets 10 .Notification streamingModel = .ok (m1, cmd) ∧
        m1.viewport.lines = [utf8 "🤖 a", utf8 "b", utf8 "c", utf8 ""] ∧
        m1.viewport.YOffset = 1 ∧ m1.viewport.maxYOffset = 3 ∧
        m1.viewport.YOffset ≠ m1.viewport.maxYOffset ∧
        m1.context.Ai.session = streamingModel.context.Ai.session := by
  refine ⟨by decide, ?_⟩
  have hcontent : viewportContent idleWidgets 10
      { streamingModel with viewport := streamingModel.viewport.GotoBottom } =
      .ok (utf8 "🤖 a\nb\nc\n") := by decide
  refine ⟨(forwardEvent idleWidgets .Notification
      { streamingModel with
        viewport := streamingModel.viewport.GotoBottom.SetContent (utf8 "🤖 a\nb\nc\n") }).1,
    (forwardEvent idleWidgets .Notification
      { streamingModel with
        viewport := streamingModel.viewport.GotoBottom.SetContent (utf8 "🤖 a\nb\nc\n") }).2,
    ?_, by decide, by decide, by decide, by decide, rfl⟩
  show updateCommon idleWidgets 10 .Notification
    { streamingModel with viewport := streamingModel.viewport.GotoBottom } = _
  simp only [updateCommon, hcontent]


end AiCli
